import Mathlib

/-!
Verification development for the pyflowgraph core: a shallow embedding of
`src/flowgraph/trace/ast_tracer.py` (the AST instrumentation rewriter) and
`src/flowgraph/core/flow_graph.py` (the flow-graph algebra), with theorems
checking the natural-language specification against the code.

Conventions of the embedding:
* Python dict-based edge/node attribute sets are modelled as records whose
  optional fields stand for presence/absence of the corresponding dict key.
* Machine-level identity of runtime objects is modelled by `Nat` labels
  (the spec's `identity(value) -> id` oracle).
* Mutation is modelled by explicit state passing; where a Python function
  mutates a shared object, the model exposes the post-state explicitly.
-/

/-! ### Runtime values for the traced program

Raw Python values flowing through the rewritten program. Function objects
are identified by a numeric label; the behaviour of calling a function is
supplied as an oracle (the rewriter never looks inside callees).
-/

inductive RVal where
  | none
  | int (n : Int)
  | str (s : String)
  | bool (b : Bool)
  | func (fid : Nat)
deriving Repr, DecidableEq

/-- Literal shapes produced by `ASTTraceTransformer.target_to_literal`:
a string for a bare name, a tuple/list of literals for sequence patterns. -/
inductive Lit where
  | str (s : String)
  | tup (ls : List Lit)
  | list (ls : List Lit)

/-- Modelled from the spec: the Event model of section 3 (`CallEvent`,
`ArgumentEvent`, `ReturnEvent`, `AccessEvent`, `AssignEvent`, `DeleteEvent`).
The concrete `Tracer`/`trace_event` classes are not under `src/`; the events
are attached to the `trace_*` callbacks of `ASTTracer` (which are in
`src/flowgraph/trace/ast_tracer.py`) following the spec's words: `CallEvent`
is emitted by `trace_function` (callee and statically-known argument count,
before any argument is evaluated), `ArgumentEvent` by `trace_argument`
(carrying the provenance event when the value arrives boxed), `ReturnEvent`
by `trace_return`, `AccessEvent` by `trace_access`, `AssignEvent` by
`trace_assign` (before the assignment takes effect), `DeleteEvent` by
`trace_delete` (before the deletion executes). -/
inductive Event where
  | callE (f : RVal) (nargs : Nat)
  | argE (value : RVal) (name : Option String) (nstars : Nat) (prov : Option Event)
  | retE (value : RVal) (multiple : Bool)
  | accessE (name : String) (value : RVal)
  | assignE (names : List Lit) (value : RVal) (prov : Option Event)
  | deleteE (names : List String)

/-- A possibly boxed value: `BoxedValue` from ast_tracer.py wraps a raw value;
per the spec it carries the event that produced the value. -/
inductive TVal where
  | raw (v : RVal)
  | boxed (v : RVal) (ev : Event)

/-- `ASTTracer._unbox`: unwrap a boxed value, return other values unchanged. -/
def unbox : TVal → RVal
  | .raw v => v
  | .boxed v _ => v

/-- The provenance event attached to a boxed value, if any. -/
def provO : TVal → Option Event
  | .raw _ => Option.none
  | .boxed _ ev => some ev

/-! ### Source and target syntax

`Expr` is the modelled fragment of the Python expression AST that
`ASTTraceTransformer` rewrites: constants, name reads (Load context) and
calls with positional (possibly starred) and keyword (possibly
double-starred, `name = none`) arguments.  `TExpr` is the rewritten syntax:
it additionally contains applications of the tracer methods.  The pair
`trace_access(name, value-expression)` always has the bare name as its
second argument, so `traceAccess` records just the name. -/

inductive Expr where
  | const (v : RVal)
  | name (x : String)
  | call (f : Expr) (args : List (Bool × Expr)) (kws : List (Option String × Expr))

inductive TExpr where
  | const (v : RVal)
  | nameT (x : String)
  | callT (f : TExpr) (args : List (Bool × TExpr)) (kws : List (Option String × TExpr))
  | traceFunction (f : TExpr) (nargs : Nat)
  | traceArgument (e : TExpr) (name : Option String) (nstars : Nat)
  | traceReturn (boxed : Bool) (multiple : Bool) (e : TExpr)
  | traceAccess (boxed : Bool) (x : String)
  | traceAssign (names : List Lit) (e : TExpr)

/-! ### The rewriter (`ASTTraceTransformer.visit_Call` / `visit_argument` /
`visit_Name`)

The `_state` dictionary of the transformer ("Hack to pass state to immediate
child node") is modelled by the two explicit flags `bx` (the `boxed` key) and
`mult` (the `multiple_values` key): `visit` clears them, `visit_with_state`
sets them for one child only, so each recursive call passes the flags it
establishes and sub-visits start from cleared state.  The Python ≥ 3.5
branch is modelled (starred arguments appear in `call.args` with a flag;
`call.starargs`/`call.kwargs` do not exist). -/

mutual

def rewriteE (bx mult : Bool) : Expr → TExpr
  | .const v => .const v
  | .name x => .traceAccess bx x
  | .call f args kws =>
      .traceReturn bx mult
        (.callT
          (.traceFunction (rewriteE false false f) (args.length + kws.length))
          (rewriteArgs args) (rewriteKws kws))

def rewriteArgs : List (Bool × Expr) → List (Bool × TExpr)
  | [] => []
  | (st, a) :: rest =>
      (st, .traceArgument (rewriteE true false a) Option.none (if st then 1 else 0))
        :: rewriteArgs rest

def rewriteKws : List (Option String × Expr) → List (Option String × TExpr)
  | [] => []
  | (nm, a) :: rest =>
      (nm, .traceArgument (rewriteE true false a) nm (if nm.isNone then 2 else 0))
        :: rewriteKws rest

end

/-! ### Evaluation of the rewritten syntax

The evaluator threads an environment and produces the value together with
the ordered list of emitted events.  `app` is the call oracle: applying the
function labelled `fid` to the (star-tagged) positional values and keyword
values.  Evaluation order is Python's: callee first, then positional
arguments left to right, then keyword arguments left to right. -/

abbrev Env := List (String × RVal)

def lookupEnv (env : Env) (x : String) : RVal :=
  match env.find? (fun p => p.1 == x) with
  | some p => p.2
  | Option.none => RVal.none

def setEnv (env : Env) (x : String) (v : RVal) : Env :=
  if env.any (fun p => p.1 == x) then
    env.map (fun p => if p.1 == x then (p.1, v) else p)
  else env ++ [(x, v)]

def delEnv (env : Env) (x : String) : Env :=
  env.filter (fun p => p.1 != x)

section Evaluator

variable (app : Nat → List (Nat × RVal) → List (Option String × RVal) → RVal)

/-- The value a call produces: apply the call oracle when the callee is a
function value (calling a non-function raises in Python; the model returns
`RVal.none`, a case excluded in every concrete instance used below). -/
def applyFunc (fv : RVal) (avs : List (Nat × RVal)) (kvs : List (Option String × RVal)) : RVal :=
  match fv with
  | .func fid => app fid avs kvs
  | _ => RVal.none

mutual

def evalT (env : Env) : TExpr → TVal × List Event
  | .const v => (.raw v, [])
  | .nameT x => (.raw (lookupEnv env x), [])
  | .traceAccess bx x =>
      let v := lookupEnv env x
      let ev := Event.accessE x v
      (if bx then .boxed v ev else .raw v, [ev])
  | .traceFunction f n =>
      let r := evalT env f
      (.raw (unbox r.1), r.2 ++ [Event.callE (unbox r.1) n])
  | .traceArgument e nm ns =>
      let r := evalT env e
      (.raw (unbox r.1), r.2 ++ [Event.argE (unbox r.1) nm ns (provO r.1)])
  | .traceReturn bx mult e =>
      let r := evalT env e
      let v := unbox r.1
      (if bx then .boxed v (Event.retE v mult) else .raw v, r.2 ++ [Event.retE v mult])
  | .traceAssign names e =>
      let r := evalT env e
      (.raw (unbox r.1), r.2 ++ [Event.assignE names (unbox r.1) (provO r.1)])
  | .callT f args kws =>
      let rf := evalT env f
      let ra := evalTArgs env args
      let rk := evalTKws env kws
      (.raw (applyFunc app (unbox rf.1) ra.1 rk.1), rf.2 ++ ra.2 ++ rk.2)

def evalTArgs (env : Env) : List (Bool × TExpr) → List (Nat × RVal) × List Event
  | [] => ([], [])
  | (st, e) :: rest =>
      let r := evalT env e
      let rr := evalTArgs env rest
      (((if st then 1 else 0), unbox r.1) :: rr.1, r.2 ++ rr.2)

def evalTKws (env : Env) : List (Option String × TExpr) → List (Option String × RVal) × List Event
  | [] => ([], [])
  | (nm, e) :: rest =>
      let r := evalT env e
      let rr := evalTKws env rest
      ((nm, unbox r.1) :: rr.1, r.2 ++ rr.2)

end

end Evaluator

/-! ### Statements: assignments and deletions

`Target` is the modelled fragment of assignment/deletion target syntax:
bare names, (nested) tuple and list patterns, attribute targets (`x.y`) and
subscript targets (`x[i]`).  For attribute and subscript targets only the
shape matters to the rewriter, so their sub-expressions are abstracted. -/

inductive Target where
  | name (s : String)
  | tup (ts : List Target)
  | list (ts : List Target)
  | attr (base : String) (field : String)
  | sub (base : String)

/-- Rewrite-time Python exceptions raised by the transformer. -/
inductive PyErr where
  | nameError
  | typeError (offending : Target)

mutual

/-- `ASTTraceTransformer.target_to_literal`.  The source reads:

    if isinstance(node, ast.Name): return ast.Str(node.id)
    elif isinstance(node, ast.Tuple): return to_tuple(map(self.target_to_literal, node.elts))
    elif isinstance(target, ast.List): return to_list(map(self.target_to_literal, node.elts))
    else: raise TypeError("Unsupported assignment target %s" % node)

The third branch tests the name `target`, which is not bound anywhere in
scope (the parameter is `node`), so for every target that is neither a
`Name` nor a `Tuple` — including the `ast.List` patterns the branch was
meant to handle — evaluating the condition raises `NameError` before the
`TypeError` branch can be reached.  `PyErr.typeError` is therefore
unreachable from this function; it is kept to show what the dead `else`
branch would report. -/
def targetToLiteral : Target → Except PyErr Lit
  | .name s => .ok (.str s)
  | .tup ts =>
      match targetsToLiterals ts with
      | .ok ls => .ok (.tup ls)
      | .error e => .error e
  | _ => .error .nameError

/-- Left-to-right traversal of a target list, stopping at the first
exception (`to_tuple(map(...))` forces the map in order). -/
def targetsToLiterals : List Target → Except PyErr (List Lit)
  | [] => .ok []
  | t :: ts =>
      match targetToLiteral t with
      | .ok l =>
          match targetsToLiterals ts with
          | .ok ls => .ok (l :: ls)
          | .error e => .error e
      | .error e => .error e

end

/-- A top-level literal is a compound (sequence) pattern when it is not a
plain string: `any(not isinstance(t, str) for t in targets)`. -/
def multipleValuesOf (ls : List Lit) : Bool :=
  ls.any (fun l => match l with | .str _ => false | _ => true)

/-- The bare name of a deletion target, if it is one
(`isinstance(n, ast.Name)`). -/
def bareName : Target → Option String
  | .name s => some s
  | _ => Option.none

inductive Stmt where
  | assign (targets : List Target) (value : Expr)
  | del (targets : List Target)
  | exprS (e : Expr)

/-- Rewritten statements.  `assign` keeps the original targets and wraps the
value in `trace_assign(targets_literal, rewritten-value)`; a rewritten `del`
is the two-statement sequence `trace_delete([...]); del ...`. -/
inductive TStmt where
  | assign (targets : List Target) (value : TExpr)
  | traceDeleteS (names : List String)
  | delS (targets : List Target)
  | exprS (e : TExpr)

/-- The statement rewriter: `ASTTraceTransformer.visit_Assign` and
`visit_Delete`.

`visit_Assign` converts the targets to a literal (which can raise, see
`targetToLiteral`), computes `multiple_values` from the literal's top-level
entries, and replaces `node.value` by
`trace_assign(targets_literal, visit_with_state(value, boxed=True,
multiple_values=multiple_values))`.

`visit_Delete` first runs `generic_visit` (which rewrites Load-context
sub-expressions inside attribute/subscript targets and leaves the targets'
shapes unchanged — those sub-expressions are abstracted in `Target`), then
collects `n.id` for exactly the targets that are `ast.Name`s, in order, and
prepends the statement `trace_delete([names])` to the original deletion. -/
def rewriteStmt : Stmt → Except PyErr (List TStmt)
  | .assign targets value =>
      match targetsToLiterals targets with
      | .error e => .error e
      | .ok lits =>
          let mult := multipleValuesOf lits
          .ok [TStmt.assign targets
                (.traceAssign lits (rewriteE true mult value))]
  | .del targets =>
      .ok [TStmt.traceDeleteS (targets.filterMap bareName), TStmt.delS targets]
  | .exprS e => .ok [TStmt.exprS (rewriteE false false e)]

/-- Binding an assignment target in the environment.  Bare names update the
environment; tuple/list destructuring and attribute/subscript stores mutate
objects rather than the variable environment and are outside the modelled
state (no claim below depends on them). -/
def bindTarget (env : Env) (t : Target) (v : RVal) : Env :=
  match t with
  | .name s => setEnv env s v
  | _ => env

/-- Effect of the underlying `del` on the variable environment: a bare name
is removed from scope; attribute/subscript deletions mutate objects, not the
environment. -/
def delTarget (env : Env) (t : Target) : Env :=
  match t with
  | .name s => delEnv env s
  | _ => env

section StmtEval

variable (app : Nat → List (Nat × RVal) → List (Option String × RVal) → RVal)

/-- Evaluate one rewritten statement: resulting environment and emitted
events.  The `trace_assign` call inside an `assign` value emits the
`AssignEvent` before the binding takes effect, and the assignment binds the
unboxed value (the public `trace_assign` unboxes). -/
def evalStmt (env : Env) : TStmt → Env × List Event
  | .assign targets value =>
      let r := evalT app env value
      (targets.foldl (fun e t => bindTarget e t (unbox r.1)) env, r.2)
  | .traceDeleteS names => (env, [Event.deleteE names])
  | .delS targets => (targets.foldl delTarget env, [])
  | .exprS e => (env, (evalT app env e).2)

def evalStmts (env : Env) : List TStmt → Env × List Event
  | [] => (env, [])
  | s :: rest =>
      let r := evalStmt app env s
      let rr := evalStmts r.1 rest
      (rr.1, r.2 ++ rr.2)

end StmtEval

/-! ### Observable decomposition of a rewritten call -/

section CallDecomposition

variable (app : Nat → List (Nat × RVal) → List (Option String × RVal) → RVal)

/-- The (star-tag, value) a positional argument contributes to the real call:
the unboxed value of its rewritten expression. -/
def argValPiece (env : Env) (p : Bool × Expr) : Nat × RVal :=
  ((if p.1 then 1 else 0), unbox (evalT app env (rewriteE true false p.2)).1)

/-- The events a positional argument contributes: its own rewritten
evaluation followed by one `ArgumentEvent` emitted immediately after it. -/
def argTracePiece (env : Env) (p : Bool × Expr) : List Event :=
  let r := evalT app env (rewriteE true false p.2)
  r.2 ++ [Event.argE (unbox r.1) Option.none (if p.1 then 1 else 0) (provO r.1)]

/-- The (keyword-name, value) a keyword argument contributes to the real
call. -/
def kwValPiece (env : Env) (p : Option String × Expr) : Option String × RVal :=
  (p.1, unbox (evalT app env (rewriteE true false p.2)).1)

/-- The events a keyword argument contributes: its own rewritten evaluation
followed by one `ArgumentEvent` (keyword name attached, `nstars = 2` for a
double-splat). -/
def kwTracePiece (env : Env) (p : Option String × Expr) : List Event :=
  let r := evalT app env (rewriteE true false p.2)
  r.2 ++ [Event.argE (unbox r.1) p.1 (if p.1.isNone then 2 else 0) (provO r.1)]

/-- The provenance a sub-expression's value carries when it is rewritten in
boxed position: its own `ReturnEvent` for a call, its `AccessEvent` for a
name read, and nothing for a constant (constants are not rewritten). -/
def provShape (env : Env) : Expr → Option Event
  | .const _ => Option.none
  | .name x => some (Event.accessE x (lookupEnv env x))
  | .call f args kws =>
      some (Event.retE
        (unbox (evalT app env (rewriteE true false (.call f args kws))).1) false)

theorem evalTArgs_rewriteArgs (env : Env) (args : List (Bool × Expr)) :
    evalTArgs app env (rewriteArgs args) =
      (args.map (argValPiece app env), (args.map (argTracePiece app env)).flatten) := by
  induction args with
  | nil => simp [rewriteArgs, evalTArgs]
  | cons p rest ih =>
      obtain ⟨st, a⟩ := p
      simp [rewriteArgs, evalTArgs, evalT, ih, argValPiece, argTracePiece, unbox]

theorem evalTKws_rewriteKws (env : Env) (kws : List (Option String × Expr)) :
    evalTKws app env (rewriteKws kws) =
      (kws.map (kwValPiece app env), (kws.map (kwTracePiece app env)).flatten) := by
  induction kws with
  | nil => simp [rewriteKws, evalTKws]
  | cons p rest ih =>
      obtain ⟨nm, a⟩ := p
      simp [rewriteKws, evalTKws, evalT, ih, kwValPiece, kwTracePiece, unbox]

end CallDecomposition

/-- C2: for every call expression `f(a1, ..., an)` (in the modelled
fragment), the rewritten form first evaluates `f` (its own events first),
then emits one `CallEvent` carrying the callee value and the argument count
statically known at the call site, before any argument is evaluated; then
evaluates each argument left-to-right, each immediately followed by its
`ArgumentEvent`; then performs the real call on the unboxed argument values
(via the call oracle); then emits a `ReturnEvent` and delivers the unboxed
result (boxed again only for an enclosing rewritten construct, `bx = true`).
The second conjunct is the boxing clause: an argument's value carries
exactly its producing event when the argument expression is itself a
rewritten call or access, and no provenance otherwise. -/
theorem c2_call_event_protocol
    (app : Nat → List (Nat × RVal) → List (Option String × RVal) → RVal)
    (env : Env) (f : Expr) (args : List (Bool × Expr))
    (kws : List (Option String × Expr)) (bx mult : Bool) :
    (evalT app env (rewriteE bx mult (.call f args kws)) =
      ((if bx then
          TVal.boxed
            (applyFunc app (unbox (evalT app env (rewriteE false false f)).1)
              (args.map (argValPiece app env)) (kws.map (kwValPiece app env)))
            (Event.retE
              (applyFunc app (unbox (evalT app env (rewriteE false false f)).1)
                (args.map (argValPiece app env)) (kws.map (kwValPiece app env))) mult)
        else
          TVal.raw
            (applyFunc app (unbox (evalT app env (rewriteE false false f)).1)
              (args.map (argValPiece app env)) (kws.map (kwValPiece app env)))),
       (evalT app env (rewriteE false false f)).2
         ++ [Event.callE (unbox (evalT app env (rewriteE false false f)).1)
               (args.length + kws.length)]
         ++ (args.map (argTracePiece app env)).flatten
         ++ (kws.map (kwTracePiece app env)).flatten
         ++ [Event.retE
               (applyFunc app (unbox (evalT app env (rewriteE false false f)).1)
                 (args.map (argValPiece app env)) (kws.map (kwValPiece app env))) mult]))
    ∧ (∀ a : Expr, provO (evalT app env (rewriteE true false a)).1 = provShape app env a) := by
  constructor
  · simp only [rewriteE, evalT, evalTArgs_rewriteArgs, evalTKws_rewriteKws, unbox]
  · intro a
    cases a with
    | const v => simp [rewriteE, evalT, provO, provShape]
    | name x => simp [rewriteE, evalT, provO, provShape]
    | call g as ks => simp [rewriteE, evalT, provO, provShape, unbox]

/-! ### The `r = f(x, y=g(x))` scenario -/

/-- Call oracle for the scenario: `g` (label 1) maps `x = 5` to `7`;
`f` (label 0) maps `(5, y=7)` to `9`. -/
def c3App : Nat → List (Nat × RVal) → List (Option String × RVal) → RVal :=
  fun fid avs kvs =>
    if fid == 1 && avs == [(0, RVal.int 5)] && kvs == [] then RVal.int 7
    else if fid == 0 && avs == [(0, RVal.int 5)]
            && kvs == [(some ("y"), RVal.int 7)] then RVal.int 9
    else RVal.none

def c3Env : Env := [("x", RVal.int 5), ("f", RVal.func 0), ("g", RVal.func 1)]

/-- The statement `r = f(x, y=g(x))`. -/
def c3Stmt : Stmt :=
  .assign [.name ("r")]
    (.call (.name ("f"))
      [(false, .name ("x"))]
      [(some ("y"), .call (.name ("g")) [(false, .name ("x"))] [])])

/-- Call/Argument/Return events (the kinds the scenario enumerates). -/
def isFuncEvent : Event → Bool
  | .callE _ _ => true
  | .argE _ _ _ _ => true
  | .retE _ _ => true
  | _ => false

/-- Full event trace of the rewritten scenario statement. -/
def c3Trace : List Event :=
  match rewriteStmt c3Stmt with
  | .ok stmts => (evalStmts c3App c3Env stmts).2
  | .error _ => []

def c3FuncEvents : List Event := c3Trace.filter isFuncEvent

/-- The sequence the claim expects: `g`'s call announced before `f`'s. -/
def c3ClaimedSeq : List Event :=
  [.callE (.func 1) 1,
   .argE (.int 5) Option.none 0 (some (.accessE ("x") (.int 5))),
   .retE (.int 7) false,
   .callE (.func 0) 2,
   .argE (.int 5) Option.none 0 (some (.accessE ("x") (.int 5))),
   .argE (.int 7) (some ("y")) 0 (some (.retE (.int 7) false)),
   .retE (.int 9) false]

/-- Discriminating observation: callee label and arity of the first event. -/
def headCallLabel : List Event → Nat
  | .callE (.func fid) n :: _ => 100 * fid + n
  | _ => 0

/-- C3 (counterexample): tracing `r = f(x, y=g(x))` does NOT emit the
claimed sequence `CallEvent(g,1), ArgumentEvent(x), ReturnEvent(g(x)),
CallEvent(f,2), ...`.  In the rewritten form
`trace_return(trace_function(f, 2)(trace_argument(x), y=trace_argument(_trace_return(...))))`
the callee's `trace_function` call is evaluated before any argument, so
`CallEvent(f, 2)` is the first call/argument/return event; the claimed
sequence instead begins with `CallEvent(g, 1)`. -/
theorem c3_scenario_counterexample : ¬ (c3FuncEvents = c3ClaimedSeq) := by
  intro h
  exact absurd (show (2 : Nat) = 101 from congrArg headCallLabel h) (by decide)

/-- C3 (amended): tracing `r = f(x, y=g(x))` emits exactly the
call/argument/return events `CallEvent(f,2), ArgumentEvent(x),
CallEvent(g,1), ArgumentEvent(x), ReturnEvent(g(x)), ArgumentEvent(g(x),
name="y"), ReturnEvent(f(...))`, in that order — the callee's `CallEvent`
precedes its arguments' events (consistent with C2), inner calls' events
appear inside the evaluation of the argument that contains them, and the
`ArgumentEvent` delivering `g(x)`'s result to `f` carries `g`'s
`ReturnEvent` as provenance. -/
theorem c3_scenario_amended : c3FuncEvents =
    [.callE (.func 0) 2,
     .argE (.int 5) Option.none 0 (some (.accessE ("x") (.int 5))),
     .callE (.func 1) 1,
     .argE (.int 5) Option.none 0 (some (.accessE ("x") (.int 5))),
     .retE (.int 7) false,
     .argE (.int 7) (some ("y")) 0 (some (.retE (.int 7) false)),
     .retE (.int 9) false] := rfl

/-- C7: behaviour of assignment-target rewriting.  The first two conjuncts
evaluate the rewriter at a list-pattern target `[x, y] = 1` and at an
attribute target `o.a = 1`: both raise `NameError`, because
`target_to_literal`'s third branch tests the unbound name `target` (a typo
for `node`), so a list of names does not rewrite successfully and an
unsupported shape is not reported via the intended
`TypeError("Unsupported assignment target ...")` (that branch is
unreachable).  The last two conjuncts show the working paths: nested
tuple-of-names targets convert to the literal, and a bare-name assignment
rewrites to the traced assignment. -/
theorem c7_assignment_target_rewrite :
    (rewriteStmt (.assign [Target.list [.name ("x"), .name ("y")]] (.const (RVal.int 1)))
       = .error PyErr.nameError)
    ∧ (rewriteStmt (.assign [Target.attr ("o") ("a")] (.const (RVal.int 1)))
       = .error PyErr.nameError)
    ∧ (targetsToLiterals [Target.tup [.name ("a"), .name ("b")], .name ("c")]
       = .ok [Lit.tup [.str ("a"), .str ("b")], .str ("c")])
    ∧ (rewriteStmt (.assign [Target.name ("r")] (.const (RVal.int 1)))
       = .ok [TStmt.assign [Target.name ("r")]
               (.traceAssign [Lit.str ("r")] (.const (RVal.int 1)))]) :=
  ⟨rfl, rfl, rfl, rfl⟩

/-- C10: rewriting `del t1, ..., tn` always succeeds and produces the
two-statement sequence `trace_delete([names]); del t1, ..., tn`, where
`names` are exactly the bare-name targets in source order (attribute and
subscript targets are silently omitted, no error); running the rewritten
sequence emits one `DeleteEvent` with those names and then performs the
underlying deletion (removing the bare names from the environment;
attribute/subscript deletions mutate objects, not the environment). -/
theorem c10_delete_rewrite
    (app : Nat → List (Nat × RVal) → List (Option String × RVal) → RVal)
    (ts : List Target) (env : Env) :
    rewriteStmt (.del ts)
      = .ok [TStmt.traceDeleteS (ts.filterMap bareName), TStmt.delS ts]
    ∧ evalStmts app env
        [TStmt.traceDeleteS (ts.filterMap bareName), TStmt.delS ts]
      = (ts.foldl delTarget env, [Event.deleteE (ts.filterMap bareName)]) := by
  constructor
  · rfl
  · simp [evalStmts, evalStmt]

/-! ### Flow graphs (`src/flowgraph/core/flow_graph.py`)

A networkx `MultiDiGraph` is modelled as: the two graph attributes
`input_node`/`output_node`, the node list (name plus the optional `graph`
attribute holding a nested flow graph — other node attributes ride along
unchanged by every modelled operation and are omitted), and the edge list
in insertion order.  Edge attributes used by the module are `id` (the
object identity, required on well-formed edges), `sourceport`,
`targetport`, and `annotation` (modelled as `note`), each optional field
standing for presence of the dict key.  Parallel edges are disambiguated by
the networkx integer key.

The model keeps edges in one flat insertion-ordered list; networkx
iterates adjacency grouped by endpoint, which can differ from insertion
order only when parallel edges interleave with other targets — none of the
properties below depends on that ordering. -/

structure EdgeData where
  objId : Nat
  sourceport : Option String
  targetport : Option String
  note : Option String
deriving Repr, DecidableEq

structure Edge where
  src : String
  tgt : String
  key : Nat
  data : EdgeData
deriving Repr, DecidableEq

inductive FlowGraph where
  | mk (inputNode outputNode : String)
       (nodes : List (String × Option FlowGraph))
       (edges : List Edge)

def FlowGraph.inputN : FlowGraph → String
  | .mk i _ _ _ => i

def FlowGraph.outputN : FlowGraph → String
  | .mk _ o _ _ => o

def FlowGraph.nodes : FlowGraph → List (String × Option FlowGraph)
  | .mk _ _ ns _ => ns

def FlowGraph.edges : FlowGraph → List Edge
  | .mk _ _ _ es => es

def FlowGraph.withNodes : FlowGraph → List (String × Option FlowGraph) → FlowGraph
  | .mk i o _ es, ns => .mk i o ns es

def FlowGraph.withEdges : FlowGraph → List Edge → FlowGraph
  | .mk i o ns _, es => .mk i o ns es

/-- `new_flow_graph()`: two sentinel nodes, no edges, graph attributes
pointing at the sentinels. -/
def new_flow_graph : FlowGraph :=
  .mk ("__in__") ("__out__") [(("__in__"), Option.none), (("__out__"), Option.none)] []

def hasNode (ns : List (String × Option FlowGraph)) (x : String) : Bool :=
  ns.any (fun p => p.1 == x)

/-- networkx `add_nodes_from` element: a new node is appended; an existing
node has its attribute dict updated — the `graph` key is overwritten only
when the incoming data carries one. -/
def addNode (ns : List (String × Option FlowGraph)) (x : String)
    (d : Option FlowGraph) : List (String × Option FlowGraph) :=
  if hasNode ns x then
    ns.map (fun p =>
      if p.1 == x then
        (p.1, match d with | Option.none => p.2 | some g => some g)
      else p)
  else ns ++ [(x, d)]

/-- `add_edge` adds missing endpoint nodes with empty data. -/
def ensureNode (ns : List (String × Option FlowGraph)) (x : String) :
    List (String × Option FlowGraph) :=
  if hasNode ns x then ns else ns ++ [(x, Option.none)]

/-- Keys of the parallel edges between `u` and `v`. -/
def edgeKeys (es : List Edge) (u v : String) : List Nat :=
  es.filterMap (fun e => if e.src == u && e.tgt == v then some e.key else Option.none)

/-- networkx `new_edge_key`: start at the number of current parallel edges
and increment past collisions (the smallest key `≥ len` not in use; one of
the `len + 1` candidates checked is always free, so the fallback value is
never produced). -/
def freshKey (es : List Edge) (u v : String) : Nat :=
  let ks := edgeKeys es u v
  (((List.range (ks.length + 1)).map (fun i => i + ks.length)).find?
      (fun k => !(ks.contains k))).getD (ks.length)

/-- `graph.add_edge(u, v, **d)` with an auto-assigned key. -/
def addEdgeG (G : FlowGraph) (u v : String) (d : EdgeData) : FlowGraph :=
  match G with
  | .mk i o ns es =>
      .mk i o (ensureNode (ensureNode ns u) v)
        (es ++ [Edge.mk u v (freshKey es u v) d])

/-- `graph.remove_edge(u, v, key=k)` (no-op when absent; networkx raises
there, a case excluded by the well-formedness hypotheses used below). -/
def removeEdgeKey (G : FlowGraph) (u v : String) (k : Nat) : FlowGraph :=
  G.withEdges (G.edges.filter (fun e => !(e.src == u && e.tgt == v && e.key == k)))

/-- `graph.remove_node(n)`: drops the node and every incident edge. -/
def removeNodeG (G : FlowGraph) (n : String) : FlowGraph :=
  match G with
  | .mk i o ns es =>
      .mk i o (ns.filter (fun p => p.1 != n))
        (es.filter (fun e => e.src != n && e.tgt != n))

/-- `copy_flow_graph(source, dest)`: append `source`'s non-sentinel nodes
(data included), then every edge not touching a sentinel of `source`, each
edge with a key freshly assigned in `dest` (networkx `edges(data=True)`
yields no keys). -/
def copy_flow_graph (source dest : FlowGraph) : FlowGraph :=
  let skip : List String := [source.inputN, source.outputN]
  let d1 := source.nodes.foldl
    (fun G p =>
      if skip.contains p.1 then G else G.withNodes (addNode G.nodes p.1 p.2))
    dest
  source.edges.foldl
    (fun G e =>
      if skip.contains e.src || skip.contains e.tgt then G
      else addEdgeG G e.src e.tgt e.data)
    d1

/-! ### Serialization to/from the GraphML wiring-diagram shape -/

structure PortData where
  portkind : String
  note : Option String
deriving Repr, DecidableEq

/-- The single-node outer graph produced by `flow_graph_to_graphml`: one
`__root__` node carrying the prepared copy of the flow graph and the port
table. -/
structure Outer where
  rootGraph : FlowGraph
  ports : List (String × PortData)

/-- `_ncopies(graph, node, obj_id)`: how many out-edges of `node` other
than those into the output sentinel carry `obj_id`. -/
def ncopies (outName : String) (es : List Edge) (node : String) (objId : Nat) : Nat :=
  (es.filter (fun e => e.src == node && e.tgt != outName && e.data.objId == objId)).length

/-- State of the input-port numbering loop: edges processed so far
(reversed), ports so far (reversed), the id-to-portname map, and the
`ninputs` counter. -/
structure InPortState where
  doneEdges : List Edge
  ports : List (String × PortData)
  inputMap : List (Nat × String)
  ninputs : Nat

/-- One step of the input loop of `flow_graph_to_graphml`: an out-edge of
the input sentinel receives the port name already mapped to its object id,
or a fresh `in:N` name (recording an input port carrying the edge's
`annotation`); other edges pass through. -/
def inPortStep (inName : String) (st : InPortState) (e : Edge) : InPortState :=
  if e.src == inName then
    match st.inputMap.find? (fun p => p.1 == e.data.objId) with
    | some p =>
        { st with doneEdges :=
            { e with data := { e.data with sourceport := some p.2 } } :: st.doneEdges }
    | Option.none =>
        let n := st.ninputs + 1
        let pn := ("in:" ++ toString n)
        { doneEdges :=
            { e with data := { e.data with sourceport := some pn } } :: st.doneEdges,
          ports := (pn, PortData.mk ("input") e.data.note) :: st.ports,
          inputMap := (e.data.objId, pn) :: st.inputMap,
          ninputs := n }
  else { st with doneEdges := e :: st.doneEdges }

/-- State of the output-port loop: kept edges (reversed), ports gathered in
both loops so far (reversed), and the `noutputs` counter. -/
structure OutPortState where
  doneEdges : List Edge
  ports : List (String × PortData)
  noutputs : Nat

/-- One step of the output loop of `flow_graph_to_graphml`: an in-edge of
the output sentinel is dropped under the pruning policy, or else numbered
`out:N`; other edges pass through.  `_ncopies` is evaluated against the
edge list as it stood when the loop started (`es0`): the Python computes it
on the live graph, but the loop only removes edges into the output sentinel
and sets port attributes, neither of which `_ncopies` reads. -/
def outPortStep (outputs : Option String) (outName : String) (es0 : List Edge)
    (st : OutPortState) (e : Edge) : OutPortState :=
  if e.tgt == outName then
    if outputs == some ("none")
        || (outputs == some ("simplify") && 0 < ncopies outName es0 e.src e.data.objId) then
      st
    else
      let n := st.noutputs + 1
      let pn := ("out:" ++ toString n)
      { doneEdges :=
          { e with data := { e.data with targetport := some pn } } :: st.doneEdges,
        ports := (pn, PortData.mk ("output") e.data.note) :: st.ports,
        noutputs := n }
  else { st with doneEdges := e :: st.doneEdges }

/-- `flow_graph_to_graphml(graph, outputs=...)`: wrap a copy of the graph
as the single `__root__` node of an outer graph, assign `in:N` source
ports to the input sentinel's out-edges (one port per object id, first-seen
order) and `out:N` target ports to the output sentinel's in-edges unless
pruned (`outputs='none'` drops them all; `'simplify'` drops those whose
object also leaves the same source toward a non-output node). -/
def flow_graph_to_graphml (outputs : Option String) (G : FlowGraph) : Outer :=
  let stIn := G.edges.foldl (inPortStep G.inputN) (InPortState.mk [] [] [] 0)
  let es1 := stIn.doneEdges.reverse
  let stOut := es1.foldl (outPortStep outputs G.outputN es1) (OutPortState.mk [] [] 0)
  Outer.mk (G.withEdges stOut.doneEdges.reverse)
    (stIn.ports.reverse ++ stOut.ports.reverse)

/-- `flow_graph_from_graphml(outer)`: unwrap the single outer node's graph
and strip the port names added at serialization time (`del
data['sourceport']` on the input sentinel's out-edges, `del
data['targetport']` on the output sentinel's in-edges; Python raises
`KeyError` when the attribute is absent, which does not occur on
serialized graphs). -/
def flow_graph_from_graphml (outer : Outer) : FlowGraph :=
  let g := outer.rootGraph
  g.withEdges (g.edges.map (fun e =>
    let d1 := if e.src == g.inputN then { e.data with sourceport := Option.none } else e.data
    let d2 := if e.tgt == g.outputN then { d1 with targetport := Option.none } else d1
    { e with data := d2 }))

/-! ### `flatten` -/

/-- Clear the `targetport` attribute of the edge identified by
`(u, v, k)` (`data.pop('targetport', None)` on a parent edge). -/
def clearTargetport (es : List Edge) (u v : String) (k : Nat) : List Edge :=
  es.map (fun e =>
    if e.src == u && e.tgt == v && e.key == k then
      { e with data := { e.data with targetport := Option.none } }
    else e)

/-- Clear the `sourceport` attribute of the edge identified by
`(u, v, k)` (`data.pop('sourceport', None)` on a parent edge). -/
def clearSourceport (es : List Edge) (u v : String) (k : Nat) : List Edge :=
  es.map (fun e =>
    if e.src == u && e.tgt == v && e.key == k then
      { e with data := { e.data with sourceport := Option.none } }
    else e)

/-- Re-wire one input object of an inlined subgraph: for the subgraph edge
`in(H) -> t` with data `sd`, search the parent's in-edges of the composite
node `n` for one carrying the same object id.  If found, pop that edge's
`targetport` in place and add `src -> t` carrying the parent edge's data
with the subgraph edge's target port.  Otherwise add an edge from the
parent's input sentinel — with the subgraph edge's data when `n` has no
in-edges at all; when it has some but none matches, the source's `for/else`
reuses the inner loop variable `data`, so the new edge carries the LAST
in-edge's attributes instead of the subgraph edge's. -/
def inputRewireStep (inName n : String) (G : FlowGraph) (t : String)
    (sd : EdgeData) : FlowGraph :=
  let inEdgesN := G.edges.filter (fun e => e.tgt == n)
  match inEdgesN.find? (fun e => e.data.objId == sd.objId) with
  | some pe =>
      let G1 := G.withEdges (clearTargetport G.edges pe.src pe.tgt pe.key)
      addEdgeG G1 pe.src t { pe.data with targetport := sd.targetport }
  | Option.none =>
      match inEdgesN.getLast? with
      | Option.none => addEdgeG G inName t sd
      | some le => addEdgeG G inName t le.data

/-- Re-wire one output object of an inlined subgraph: for the subgraph edge
`s -> out(H)` with data `sd`, every parent out-edge `n -> tgt` carrying the
same object id gets its `sourceport` popped in place and a new edge
`s -> tgt` added, carrying the parent edge's data with the subgraph edge's
source port.  The iteration is over the out-edges of `n` as they stand at
the start of this step (the edges the loop itself adds leave `n`'s
adjacency unchanged, since their sources are subgraph nodes). -/
def outputRewireStep (n : String) (G : FlowGraph) (s : String)
    (sd : EdgeData) : FlowGraph :=
  let outEdgesN := G.edges.filter (fun e => e.src == n)
  outEdgesN.foldl
    (fun g e =>
      if e.data.objId == sd.objId then
        let g1 := g.withEdges (clearSourceport g.edges e.src e.tgt e.key)
        addEdgeG g1 s e.tgt { e.data with sourceport := sd.sourceport }
      else g)
    G

/-- Inline the (already flat) subgraph `H` of composite node `n` into `G`:
copy `H`'s non-sentinel content, re-wire `H`'s input and output objects,
then remove `n` and its edges. -/
def inlineSub (G : FlowGraph) (n : String) (H : FlowGraph) : FlowGraph :=
  let G1 := copy_flow_graph H G
  let G2 := (H.edges.filter (fun e => e.src == H.inputN)).foldl
    (fun g e => inputRewireStep G1.inputN n g e.tgt e.data) G1
  let G3 := (H.edges.filter (fun e => e.tgt == H.outputN)).foldl
    (fun g e => outputRewireStep n g e.src e.data) G2
  removeNodeG G3 n

/-- One iteration of `flatten`'s node loop, for the node named `n` of the
snapshot taken at entry: look the node up in the current graph; skip it
unless it carries a nonempty nested graph (`if not subgraph: continue` — a
well-formed nested graph contains its sentinels, hence is nonempty), else
inline.  The nested graph found here is already flat (`flattenSubs` below
pre-flattens exactly the nested graphs the loop would flatten; in the
source the recursive `flatten(subgraph, copy=False)` runs at this point,
which is the identity on an already-flat graph). -/
def inlineStep (G : FlowGraph) (n : String) : FlowGraph :=
  match G.nodes.find? (fun p => p.1 == n) with
  | some (_, some H) => if H.nodes.isEmpty then G else inlineSub G n H
  | _ => G

mutual

/-- `flatten(graph)` (the `copy=True` result value; `copy=False` returns
the same value while mutating its argument — see `flattenInputEffect`).
The recursion `flatten(subgraph, copy=False)` is applied to every nonempty
nested graph first (`flattenSubs`), then each node of the entry snapshot is
processed in order (`inlineStep`). -/
def flattenG : FlowGraph → FlowGraph
  | .mk i o ns es =>
      (ns.map Prod.fst).foldl inlineStep (FlowGraph.mk i o (flattenSubs ns) es)

/-- Replace every nonempty nested graph by its flattening (the emptiness
test is Python's `if not subgraph` falsiness check). -/
def flattenSubs : List (String × Option FlowGraph) → List (String × Option FlowGraph)
  | [] => []
  | (n, Option.none) :: rest => (n, Option.none) :: flattenSubs rest
  | (n, some H) :: rest =>
      (n, some (if H.nodes.isEmpty then H else flattenG H)) :: flattenSubs rest

end

/-! ### `join` -/

/-- The output table of `join`: `{data['id']: (src, key) for ... in
in_edges(output_node)}` — for duplicate ids the dict keeps the last
edge. -/
def outputTableLookup (G : FlowGraph) (objId : Nat) : Option (String × Nat) :=
  ((G.edges.filter (fun e => e.tgt == G.outputN)).reverse.find?
      (fun e => e.data.objId == objId)).map (fun e => (e.src, e.key))

/-- `join(first, second)` (the `copy=True` result value; with `copy=False`
the same value is produced by mutating `first`).  Build the output table of
`first`, copy `second`'s non-sentinel content in, connect `second`'s
external inputs either to the tabled source (carrying that output edge's
`sourceport` — Python reads `graph.edges[src, output_node, key]
['sourceport']`, raising `KeyError` when absent, which well-formed graphs
exclude) or to `first`'s input sentinel; then re-emit `second`'s outputs to
the result's output sentinel, first removing the tabled `first`-side output
edge for the same object id if any. -/
def join (first second : FlowGraph) : FlowGraph :=
  let oN := first.outputN
  let G1 := copy_flow_graph second first
  let G2 := (second.edges.filter (fun e => e.src == second.inputN)).foldl
    (fun g e =>
      match outputTableLookup first e.data.objId with
      | some sk =>
          let sp :=
            ((g.edges.find? (fun e2 =>
                e2.src == sk.1 && e2.tgt == oN && e2.key == sk.2)).map
              (fun e2 => e2.data.sourceport)).getD Option.none
          addEdgeG g sk.1 e.tgt { e.data with sourceport := sp }
      | Option.none => addEdgeG g first.inputN e.tgt e.data)
    G1
  (second.edges.filter (fun e => e.tgt == second.outputN)).foldl
    (fun g e =>
      let g1 :=
        match outputTableLookup first e.data.objId with
        | some sk => removeEdgeKey g sk.1 oN sk.2
        | Option.none => g
      addEdgeG g1 e.src oN e.data)
    G2

/-! ### Effects of `flatten` on the input graph (aliasing model)

`flatten(graph, copy=True)` starts from `graph.copy()`.  networkx `copy()`
copies the node/edge attribute dicts one level deep, so the nested
`FlowGraph` object stored under a composite node's `graph` key is SHARED
between the input and the copy.  The recursive call
`flatten(subgraph, copy=False)` then mutates that shared object in place
(it is a no-op exactly on already-flat nested graphs).  The observable
post-state of the input graph object is therefore the input with every
nonempty nested graph replaced by its flattening — which is `flattenSubs`
applied to the top-level node list. -/
def flattenInputEffect : FlowGraph → FlowGraph
  | .mk i o ns es => .mk i o (flattenSubs ns) es

/-- No node of the graph carries a nested graph. -/
def noComposite (G : FlowGraph) : Bool :=
  G.nodes.all (fun p => p.2.isNone)

/-- Distinctness of a name list (networkx nodes are dict keys). -/
def nodupStr : List String → Bool
  | [] => true
  | x :: rest => !(rest.contains x) && nodupStr rest

mutual

/-- Well-formedness used by the `flatten`/`join` theorems: node names are
distinct, both sentinels are present as plain (atomic) nodes, and every
nested graph is likewise well-formed. -/
def flattenWF : FlowGraph → Bool
  | .mk i o ns _ =>
      nodupStr (ns.map Prod.fst) && hasNode ns i && hasNode ns o
        && ns.all (fun p => !(p.1 == i || p.1 == o) || p.2.isNone)
        && subsWF ns

def subsWF : List (String × Option FlowGraph) → Bool
  | [] => true
  | (_, Option.none) :: rest => subsWF rest
  | (_, some H) :: rest => flattenWF H && subsWF rest

end

/-! #### Node-list preservation lemmas -/

theorem hasNode_iff (ns : List (String × Option FlowGraph)) (x : String) :
    hasNode ns x = true ↔ x ∈ ns.map Prod.fst := by
  simp [hasNode, List.any_eq_true, List.mem_map]

theorem nodupStr_iff (xs : List String) : nodupStr xs = true ↔ xs.Nodup := by
  induction xs with
  | nil => simp [nodupStr]
  | cons x rest ih => simp [nodupStr, ih, List.nodup_cons]

theorem nodup_unique_data (ns : List (String × Option FlowGraph))
    (h : nodupStr (ns.map Prod.fst) = true) (x : String)
    (d1 d2 : Option FlowGraph) (h1 : (x, d1) ∈ ns) (h2 : (x, d2) ∈ ns) :
    d1 = d2 := by
  rw [nodupStr_iff] at h
  induction ns with
  | nil => cases h1
  | cons p rest ih =>
      simp only [List.map_cons, List.nodup_cons] at h
      rcases List.mem_cons.mp h1 with h1 | h1 <;>
        rcases List.mem_cons.mp h2 with h2 | h2
      · exact congrArg Prod.snd (h1.trans h2.symm)
      · exfalso
        exact h.1 ((congrArg Prod.fst h1) ▸ List.mem_map.mpr ⟨(x, d2), h2, rfl⟩)
      · exfalso
        exact h.1 ((congrArg Prod.fst h2) ▸ List.mem_map.mpr ⟨(x, d1), h1, rfl⟩)
      · exact ih h.2 h1 h2

theorem addNode_none_eq (ns : List (String × Option FlowGraph)) (x : String) :
    addNode ns x Option.none =
      if hasNode ns x then ns else ns ++ [(x, Option.none)] := by
  unfold addNode
  split
  · simp
  · rfl

/-- Invariant on a node list carried through the `flatten` loop: distinct
names, both sentinels `i`/`o` present as atomic nodes, and every composite
node satisfying `C`. -/
def NP (C : String → FlowGraph → Prop) (i o : String)
    (ns : List (String × Option FlowGraph)) : Prop :=
  nodupStr (ns.map Prod.fst) = true
  ∧ (i, (Option.none : Option FlowGraph)) ∈ ns
  ∧ (o, (Option.none : Option FlowGraph)) ∈ ns
  ∧ ∀ m K, (m, some K) ∈ ns → C m K

theorem NP_mono {C C' : String → FlowGraph → Prop} {i o : String}
    {ns : List (String × Option FlowGraph)}
    (hmono : ∀ m K, C m K → C' m K) (h : NP C i o ns) : NP C' i o ns :=
  ⟨h.1, h.2.1, h.2.2.1, fun m K hm => hmono m K (h.2.2.2 m K hm)⟩

theorem NP_append_none {C : String → FlowGraph → Prop} {i o : String}
    {ns : List (String × Option FlowGraph)} (x : String)
    (hx : hasNode ns x = false) (h : NP C i o ns) :
    NP C i o (ns ++ [(x, Option.none)]) := by
  obtain ⟨h1, h2, h3, h4⟩ := h
  refine ⟨?_, List.mem_append_left _ h2, List.mem_append_left _ h3, ?_⟩
  · rw [nodupStr_iff] at h1 ⊢
    have hx2 : x ∉ ns.map Prod.fst := by
      intro hc
      rw [← hasNode_iff] at hc
      rw [hc] at hx
      cases hx
    simp only [List.map_append, List.map_cons, List.map_nil]
    rw [List.nodup_append]
    refine ⟨h1, List.nodup_singleton x, ?_⟩
    intro a ha hax
    simp at hax
    exact hx2 (hax ▸ ha)
  · intro m K hm
    rcases List.mem_append.mp hm with hm | hm
    · exact h4 m K hm
    · simp at hm

theorem NP_ensureNode {C : String → FlowGraph → Prop} {i o : String}
    {ns : List (String × Option FlowGraph)} (x : String) (h : NP C i o ns) :
    NP C i o (ensureNode ns x) := by
  unfold ensureNode
  split
  · exact h
  · exact NP_append_none x (by simp_all) h

theorem NP_addNode_none {C : String → FlowGraph → Prop} {i o : String}
    {ns : List (String × Option FlowGraph)} (x : String) (h : NP C i o ns) :
    NP C i o (addNode ns x Option.none) := by
  rw [addNode_none_eq]
  split
  · exact h
  · exact NP_append_none x (by simp_all) h

theorem nodes_withEdges (G : FlowGraph) (es : List Edge) :
    (G.withEdges es).nodes = G.nodes := by
  cases G; rfl

theorem nodes_addEdgeG (G : FlowGraph) (u v : String) (d : EdgeData) :
    (addEdgeG G u v d).nodes = ensureNode (ensureNode G.nodes u) v := by
  cases G; rfl

theorem nodes_removeEdgeKey (G : FlowGraph) (u v : String) (k : Nat) :
    (removeEdgeKey G u v k).nodes = G.nodes := by
  cases G; rfl

theorem nodes_removeNodeG (G : FlowGraph) (n : String) :
    (removeNodeG G n).nodes = G.nodes.filter (fun p => p.1 != n) := by
  cases G; rfl

/-- The pair of graph attributes (`input_node`, `output_node`). -/
def attrsOf (G : FlowGraph) : String × String := (G.inputN, G.outputN)

theorem attrsOf_withEdges (G : FlowGraph) (es : List Edge) :
    attrsOf (G.withEdges es) = attrsOf G := by
  cases G; rfl

theorem attrsOf_withNodes (G : FlowGraph) (ns : List (String × Option FlowGraph)) :
    attrsOf (G.withNodes ns) = attrsOf G := by
  cases G; rfl

theorem attrsOf_addEdgeG (G : FlowGraph) (u v : String) (d : EdgeData) :
    attrsOf (addEdgeG G u v d) = attrsOf G := by
  cases G; rfl

theorem attrsOf_removeEdgeKey (G : FlowGraph) (u v : String) (k : Nat) :
    attrsOf (removeEdgeKey G u v k) = attrsOf G := by
  cases G; rfl

theorem attrsOf_removeNodeG (G : FlowGraph) (n : String) :
    attrsOf (removeNodeG G n) = attrsOf G := by
  cases G; rfl

theorem attrsOf_foldl {α : Type} (f : FlowGraph → α → FlowGraph)
    (hf : ∀ g a, attrsOf (f g a) = attrsOf g) :
    ∀ (l : List α) (G : FlowGraph), attrsOf (l.foldl f G) = attrsOf G := by
  intro l
  induction l with
  | nil => intro G; rfl
  | cons a rest ih => intro G; exact (ih (f G a)).trans (hf G a)

theorem attrsOf_copy (source G : FlowGraph) :
    attrsOf (copy_flow_graph source G) = attrsOf G := by
  unfold copy_flow_graph
  refine (attrsOf_foldl _ ?_ _ _).trans (attrsOf_foldl _ ?_ _ _)
  · intro g e
    dsimp only
    split
    · rfl
    · exact attrsOf_addEdgeG g _ _ _
  · intro g p
    dsimp only
    split
    · rfl
    · exact attrsOf_withNodes g _

theorem attrsOf_inputRewireStep (iN n : String) (G : FlowGraph) (t : String) (sd : EdgeData) :
    attrsOf (inputRewireStep iN n G t sd) = attrsOf G := by
  unfold inputRewireStep
  dsimp only
  split
  · exact (attrsOf_addEdgeG _ _ _ _).trans (attrsOf_withEdges _ _)
  · split
    · exact attrsOf_addEdgeG _ _ _ _
    · exact attrsOf_addEdgeG _ _ _ _

theorem attrsOf_outputRewireStep (n : String) (G : FlowGraph) (s : String) (sd : EdgeData) :
    attrsOf (outputRewireStep n G s sd) = attrsOf G := by
  unfold outputRewireStep
  refine attrsOf_foldl _ ?_ _ _
  intro g e
  dsimp only
  split
  · exact (attrsOf_addEdgeG _ _ _ _).trans (attrsOf_withEdges _ _)
  · rfl

theorem attrsOf_inlineSub (G : FlowGraph) (n : String) (H : FlowGraph) :
    attrsOf (inlineSub G n H) = attrsOf G := by
  unfold inlineSub
  refine (attrsOf_removeNodeG _ _).trans
    (((attrsOf_foldl _ ?_ _ _).trans ((attrsOf_foldl _ ?_ _ _).trans (attrsOf_copy _ _))))
  · intro g e; exact attrsOf_outputRewireStep _ _ _ _
  · intro g e; exact attrsOf_inputRewireStep _ _ _ _ _

theorem attrsOf_inlineStep (G : FlowGraph) (n : String) :
    attrsOf (inlineStep G n) = attrsOf G := by
  unfold inlineStep
  split
  · split
    · rfl
    · exact attrsOf_inlineSub _ _ _
  · rfl

theorem attrsOf_flattenG (G : FlowGraph) : attrsOf (flattenG G) = attrsOf G := by
  cases G with
  | mk i o ns es =>
      rw [flattenG]
      exact attrsOf_foldl _ (fun g a => attrsOf_inlineStep g a) _ _

theorem nodes_withNodes (G : FlowGraph) (ns : List (String × Option FlowGraph)) :
    (G.withNodes ns).nodes = ns := by
  cases G; rfl

theorem NP_mono_mem {C C' : String → FlowGraph → Prop} {i o : String}
    {ns : List (String × Option FlowGraph)}
    (hmono : ∀ m K, (m, some K) ∈ ns → C m K → C' m K) (h : NP C i o ns) :
    NP C' i o ns :=
  ⟨h.1, h.2.1, h.2.2.1, fun m K hm => hmono m K hm (h.2.2.2 m K hm)⟩

theorem NP_addEdgeG {C : String → FlowGraph → Prop} {i o : String}
    (G : FlowGraph) (u v : String) (d : EdgeData) (h : NP C i o G.nodes) :
    NP C i o (addEdgeG G u v d).nodes := by
  rw [nodes_addEdgeG]
  exact NP_ensureNode v (NP_ensureNode u h)

theorem NP_foldl {α : Type} {C : String → FlowGraph → Prop} {i o : String}
    (f : FlowGraph → α → FlowGraph)
    (hf : ∀ g a, NP C i o g.nodes → NP C i o (f g a).nodes) :
    ∀ (l : List α) (G : FlowGraph), NP C i o G.nodes → NP C i o (l.foldl f G).nodes := by
  intro l
  induction l with
  | nil => intro G h; exact h
  | cons a rest ih => intro G h; exact ih (f G a) (hf G a h)

theorem NP_copy_nodes_fold {C : String → FlowGraph → Prop} {i o : String} :
    ∀ (l : List (String × Option FlowGraph)) (skip : List String) (G : FlowGraph),
      (∀ p ∈ l, p.2 = Option.none) → NP C i o G.nodes →
      NP C i o ((l.foldl
        (fun g p => if skip.contains p.1 then g
                    else g.withNodes (addNode g.nodes p.1 p.2)) G)).nodes := by
  intro l
  induction l with
  | nil => intro skip G _ h; exact h
  | cons p rest ih =>
      intro skip G hflat h
      simp only [List.foldl_cons]
      apply ih _ _ (fun q hq => hflat q (List.mem_cons_of_mem p hq))
      split
      · exact h
      · rw [nodes_withNodes]
        rw [hflat p (List.mem_cons_self p rest)]
        exact NP_addNode_none p.1 h

theorem NP_copy {C : String → FlowGraph → Prop} {i o : String}
    (source G : FlowGraph) (hflat : ∀ p ∈ source.nodes, p.2 = Option.none)
    (h : NP C i o G.nodes) : NP C i o (copy_flow_graph source G).nodes := by
  unfold copy_flow_graph
  dsimp only
  apply NP_foldl
  · intro g e hg
    dsimp only
    split
    · exact hg
    · exact NP_addEdgeG g _ _ _ hg
  · exact NP_copy_nodes_fold source.nodes _ G hflat h

theorem NP_inputRewireStep {C : String → FlowGraph → Prop} {i o : String}
    (iN n : String) (G : FlowGraph) (t : String) (sd : EdgeData)
    (h : NP C i o G.nodes) : NP C i o (inputRewireStep iN n G t sd).nodes := by
  unfold inputRewireStep
  dsimp only
  split
  · apply NP_addEdgeG
    rw [nodes_withEdges]
    exact h
  · split
    · exact NP_addEdgeG G _ _ _ h
    · exact NP_addEdgeG G _ _ _ h

theorem NP_outputRewireStep {C : String → FlowGraph → Prop} {i o : String}
    (n : String) (G : FlowGraph) (s : String) (sd : EdgeData)
    (h : NP C i o G.nodes) : NP C i o (outputRewireStep n G s sd).nodes := by
  unfold outputRewireStep
  apply NP_foldl
  · intro g e hg
    dsimp only
    split
    · apply NP_addEdgeG
      rw [nodes_withEdges]
      exact hg
    · exact hg
  · exact h

theorem NP_removeNodeG {C : String → FlowGraph → Prop} {i o : String}
    (G : FlowGraph) (n : String) (hni : n ≠ i) (hno : n ≠ o)
    (h : NP C i o G.nodes) :
    NP (fun m K => C m K ∧ m ≠ n) i o (removeNodeG G n).nodes := by
  rw [nodes_removeNodeG]
  obtain ⟨h1, h2, h3, h4⟩ := h
  refine ⟨?_, ?_, ?_, ?_⟩
  · rw [nodupStr_iff] at h1 ⊢
    exact h1.sublist (List.Sublist.map Prod.fst (List.filter_sublist _))
  · exact List.mem_filter.mpr ⟨h2, by simp [bne_iff_ne]; exact fun he => hni he.symm⟩
  · exact List.mem_filter.mpr ⟨h3, by simp [bne_iff_ne]; exact fun he => hno he.symm⟩
  · intro m K hm
    have := List.mem_filter.mp hm
    refine ⟨h4 m K this.1, ?_⟩
    have hp := this.2
    simpa [bne_iff_ne] using hp

theorem NP_inlineSub {C : String → FlowGraph → Prop} {i o : String}
    (G : FlowGraph) (n : String) (K : FlowGraph)
    (hflat : ∀ p ∈ K.nodes, p.2 = Option.none)
    (hni : n ≠ i) (hno : n ≠ o) (h : NP C i o G.nodes) :
    NP (fun m K' => C m K' ∧ m ≠ n) i o (inlineSub G n K).nodes := by
  unfold inlineSub
  dsimp only
  apply NP_removeNodeG _ _ hni hno
  apply NP_foldl _ (fun g e hg => NP_outputRewireStep n g e.src e.data hg)
  apply NP_foldl _ (fun g e hg => NP_inputRewireStep _ n g e.tgt e.data hg)
  exact NP_copy K G hflat h

theorem noComposite_flat {K : FlowGraph} (h : noComposite K = true) :
    ∀ p ∈ K.nodes, p.2 = Option.none := by
  intro p hp
  have := (List.all_eq_true.mp h) p hp
  simpa [Option.isNone_iff_eq_none] using this

theorem mem_flattenSubs_none (ns : List (String × Option FlowGraph)) (x : String)
    (h : (x, (Option.none : Option FlowGraph)) ∈ ns) :
    (x, (Option.none : Option FlowGraph)) ∈ flattenSubs ns := by
  induction ns with
  | nil => cases h
  | cons p rest ih =>
      obtain ⟨y, d⟩ := p
      rcases List.mem_cons.mp h with hh | hh
      · injection hh with h1 h2
        subst h1
        subst h2
        rw [flattenSubs]
        exact List.mem_cons_self _ _
      · cases d with
        | none => rw [flattenSubs]; exact List.mem_cons_of_mem _ (ih hh)
        | some H => rw [flattenSubs]; exact List.mem_cons_of_mem _ (ih hh)

theorem mem_some_flattenSubs (ns : List (String × Option FlowGraph)) (m : String)
    (K : FlowGraph) (h : (m, some K) ∈ flattenSubs ns) :
    ∃ H, (m, some H) ∈ ns ∧ K = (if H.nodes.isEmpty then H else flattenG H) := by
  induction ns with
  | nil => rw [flattenSubs] at h; cases h
  | cons p rest ih =>
      match p with
      | (x, Option.none) =>
          rw [flattenSubs] at h
          rcases List.mem_cons.mp h with h | h
          · cases h
          · obtain ⟨H, hH, he⟩ := ih h
            exact ⟨H, List.mem_cons_of_mem _ hH, he⟩
      | (x, some H0) =>
          rw [flattenSubs] at h
          rcases List.mem_cons.mp h with h | h
          · have h1 : m = x := congrArg Prod.fst h
            have h2 := congrArg Prod.snd h
            simp only [Option.some.injEq] at h2
            exact ⟨H0, by rw [h1]; exact List.mem_cons_self _ _, h2⟩
          · obtain ⟨H, hH, he⟩ := ih h
            exact ⟨H, List.mem_cons_of_mem _ hH, he⟩

theorem map_fst_flattenSubs (ns : List (String × Option FlowGraph)) :
    (flattenSubs ns).map Prod.fst = ns.map Prod.fst := by
  induction ns with
  | nil => rfl
  | cons p rest ih =>
      match p with
      | (x, Option.none) => rw [flattenSubs]; simpa using ih
      | (x, some H) => rw [flattenSubs]; simpa using ih

theorem subsWF_mem (ns : List (String × Option FlowGraph)) (m : String) (H : FlowGraph)
    (h : subsWF ns = true) (hm : (m, some H) ∈ ns) : flattenWF H = true := by
  induction ns with
  | nil => cases hm
  | cons p rest ih =>
      match p with
      | (x, Option.none) =>
          rw [subsWF] at h
          rcases List.mem_cons.mp hm with hm | hm
          · cases hm
          · exact ih h hm
      | (x, some H0) =>
          rw [subsWF] at h
          rw [Bool.and_eq_true] at h
          rcases List.mem_cons.mp hm with hm | hm
          · have h2 := congrArg Prod.snd hm
            simp only [Option.some.injEq] at h2
            rw [h2]; exact h.1
          · exact ih h.2 hm

/-- Composite-node condition carried through the `flatten` loop: the node's
name is still pending and its nested graph is flat and nonempty. -/
def Cflat (R : List String) (m : String) (K : FlowGraph) : Prop :=
  m ∈ R ∧ noComposite K = true ∧ K.nodes ≠ []

theorem invF_step {i o : String} (n : String) (rest : List String) (G : FlowGraph)
    (h : NP (Cflat (n :: rest)) i o G.nodes) :
    NP (Cflat rest) i o (inlineStep G n).nodes := by
  unfold inlineStep
  cases hF : G.nodes.find? (fun p => p.1 == n) with
  | none =>
      refine NP_mono_mem ?_ h
      intro m K hm hC
      have hne := List.find?_eq_none.mp hF (m, some K) hm
      simp only [beq_iff_eq] at hne
      exact ⟨(List.mem_cons.mp hC.1).resolve_left hne, hC.2⟩
  | some p =>
      have hmem := List.mem_of_find?_eq_some hF
      have hbeq : p.1 = n := by simpa using List.find?_some hF
      match p, hmem, hbeq with
      | (m0, Option.none), hmem, hbeq =>
          refine NP_mono_mem ?_ h
          intro m K hm hC
          refine ⟨(List.mem_cons.mp hC.1).resolve_left ?_, hC.2⟩
          intro he
          have : some K = Option.none := by
            apply nodup_unique_data _ h.1 n
            · rw [← he]; exact hm
            · rw [← hbeq]; exact hmem
          cases this
      | (m0, some K), hmem, hbeq =>
          have hmemn : (n, some K) ∈ G.nodes := by rw [← hbeq]; exact hmem
          have hC := h.2.2.2 n K hmemn
          have hKe : K.nodes.isEmpty = false := by
            rw [Bool.eq_false_iff]
            intro hh
            exact hC.2.2 (List.isEmpty_iff.mp hh)
          dsimp only
          rw [hKe]
          simp only [Bool.false_eq_true, if_false]
          have hni : n ≠ i := by
            intro he
            have : some K = Option.none := by
              apply nodup_unique_data _ h.1 n
              · exact hmemn
              · rw [he]; exact h.2.1
            cases this
          have hno : n ≠ o := by
            intro he
            have : some K = Option.none := by
              apply nodup_unique_data _ h.1 n
              · exact hmemn
              · rw [he]; exact h.2.2.1
            cases this
          refine NP_mono_mem ?_
            (NP_inlineSub G n K (noComposite_flat hC.2.1) hni hno h)
          intro m K' _ hCK
          exact ⟨(List.mem_cons.mp hCK.1.1).resolve_left hCK.2, hCK.1.2⟩

theorem invF_fold {i o : String} :
    ∀ (R : List String) (G : FlowGraph), NP (Cflat R) i o G.nodes →
      noComposite (R.foldl inlineStep G) = true
      ∧ (i, (Option.none : Option FlowGraph)) ∈ (R.foldl inlineStep G).nodes
      ∧ (o, (Option.none : Option FlowGraph)) ∈ (R.foldl inlineStep G).nodes := by
  intro R
  induction R with
  | nil =>
      intro G h
      refine ⟨?_, h.2.1, h.2.2.1⟩
      rw [noComposite, List.all_eq_true]
      intro p hp
      match p, hp with
      | (m, Option.none), hp => rfl
      | (m, some K), hp => exact absurd (h.2.2.2 m K hp).1 (List.not_mem_nil m)
  | cons n rest ih =>
      intro G h
      exact ih (inlineStep G n) (invF_step n rest G h)

theorem hasNode_mem_atomic (ns : List (String × Option FlowGraph)) (i o x : String)
    (hx : hasNode ns x = true)
    (hatomic : ns.all (fun p => !(p.1 == i || p.1 == o) || p.2.isNone) = true)
    (hxio : x = i ∨ x = o) :
    (x, (Option.none : Option FlowGraph)) ∈ ns := by
  rw [hasNode_iff] at hx
  obtain ⟨p, hp, hfst⟩ := List.mem_map.mp hx
  have ha := (List.all_eq_true.mp hatomic) p hp
  have hbeq : (p.1 == i || p.1 == o) = true := by
    rcases hxio with he | he <;> subst he <;> rw [hfst] <;> simp
  rw [hbeq] at ha
  simp only [Bool.not_true, Bool.false_or] at ha
  have h2 : p.2 = Option.none := by simpa [Option.isNone_iff_eq_none] using ha
  have : p = (x, Option.none) := by
    rw [← hfst, ← h2]
  rw [← this]
  exact hp

theorem flattenWF_parts (G : FlowGraph) (h : flattenWF G = true) :
    nodupStr (G.nodes.map Prod.fst) = true
    ∧ (G.inputN, (Option.none : Option FlowGraph)) ∈ G.nodes
    ∧ (G.outputN, (Option.none : Option FlowGraph)) ∈ G.nodes
    ∧ subsWF G.nodes = true := by
  cases G with
  | mk i o ns es =>
      rw [flattenWF] at h
      simp only [Bool.and_eq_true] at h
      obtain ⟨⟨⟨⟨h1, h2⟩, h3⟩, h4⟩, h5⟩ := h
      exact ⟨h1, hasNode_mem_atomic ns i o i h2 h4 (Or.inl rfl),
        hasNode_mem_atomic ns i o o h3 h4 (Or.inr rfl), h5⟩

/-- After `flatten`, no composite nodes remain, and both sentinels are
still present as atomic nodes. -/
theorem flattenG_flat_sentinels : ∀ (G : FlowGraph), flattenWF G = true →
    noComposite (flattenG G) = true
    ∧ (G.inputN, (Option.none : Option FlowGraph)) ∈ (flattenG G).nodes
    ∧ (G.outputN, (Option.none : Option FlowGraph)) ∈ (flattenG G).nodes
  | .mk i o ns es, h => by
      obtain ⟨h1, h2, h3, h5⟩ := flattenWF_parts _ h
      rw [flattenG]
      apply invF_fold (ns.map Prod.fst) (FlowGraph.mk i o (flattenSubs ns) es)
      refine ⟨?_, ?_, ?_, ?_⟩
      · show nodupStr ((flattenSubs ns).map Prod.fst) = true
        rw [map_fst_flattenSubs]
        exact h1
      · exact mem_flattenSubs_none ns i h2
      · exact mem_flattenSubs_none ns o h3
      · intro m K hm
        obtain ⟨H, hH, hKe⟩ := mem_some_flattenSubs ns m K hm
        have hWFH : flattenWF H = true := subsWF_mem ns m H h5 hH
        have hHne : H.nodes ≠ [] :=
          List.ne_nil_of_mem (flattenWF_parts H hWFH).2.1
        have hEm : H.nodes.isEmpty = false := by
          rw [Bool.eq_false_iff]
          intro hh
          exact hHne (List.isEmpty_iff.mp hh)
        rw [hEm] at hKe
        simp only [Bool.false_eq_true, if_false] at hKe
        have hrec := flattenG_flat_sentinels H hWFH
        refine ⟨List.mem_map.mpr ⟨(m, some H), hH, rfl⟩, ?_, ?_⟩
        · rw [hKe]; exact hrec.1
        · rw [hKe]; exact List.ne_nil_of_mem hrec.2.1
termination_by G => sizeOf G
decreasing_by
  simp_wf
  have hsz := List.sizeOf_lt_of_mem hH
  simp only [Prod.mk.sizeOf_spec, Option.some.sizeOf_spec] at hsz
  omega

theorem flattenSubs_of_subflat (ns : List (String × Option FlowGraph))
    (h : ∀ p ∈ ns, ∀ H, p.2 = some H → noComposite H = true)
    (hrec : ∀ p ∈ ns, ∀ H, p.2 = some H → flattenG H = H) :
    flattenSubs ns = ns := by
  induction ns with
  | nil => rfl
  | cons p rest ih =>
      obtain ⟨y, d⟩ := p
      cases d with
      | none =>
          rw [flattenSubs]
          rw [ih (fun q hq => h q (List.mem_cons_of_mem _ hq))
            (fun q hq => hrec q (List.mem_cons_of_mem _ hq))]
      | some H =>
          rw [flattenSubs]
          rw [hrec (y, some H) (List.mem_cons_self _ _) H rfl]
          rw [ite_self]
          rw [ih (fun q hq => h q (List.mem_cons_of_mem _ hq))
            (fun q hq => hrec q (List.mem_cons_of_mem _ hq))]

theorem inlineStep_of_flat (G : FlowGraph) (h : noComposite G = true) (n : String) :
    inlineStep G n = G := by
  unfold inlineStep
  cases hF : G.nodes.find? (fun p => p.1 == n) with
  | none => rfl
  | some p =>
      obtain ⟨m, d⟩ := p
      have hd : d = Option.none :=
        noComposite_flat h (m, d) (List.mem_of_find?_eq_some hF)
      subst hd
      rfl

theorem foldl_inlineStep_flat (R : List String) (G : FlowGraph)
    (h : noComposite G = true) : R.foldl inlineStep G = G := by
  induction R with
  | nil => rfl
  | cons n rest ih =>
      simp only [List.foldl_cons]
      rw [inlineStep_of_flat G h n]
      exact ih

/-- `flatten` is the identity on a graph with no composite nodes: the node
loop finds no nested graph to inline. -/
theorem flattenG_of_flat (G : FlowGraph) (h : noComposite G = true) :
    flattenG G = G := by
  cases G with
  | mk i o ns es =>
      rw [flattenG]
      have hflat : ∀ p ∈ ns, p.2 = Option.none := noComposite_flat h
      rw [flattenSubs_of_subflat ns
        (fun p hp H hH => absurd (hflat p hp) (by rw [hH]; intro hc; cases hc))
        (fun p hp H hH => absurd (hflat p hp) (by rw [hH]; intro hc; cases hc))]
      exact foldl_inlineStep_flat _ _ h

/-- C4: for a well-formed flow graph (distinct node names, sentinels
present and atomic at every nesting level), one `flatten` pass leaves no
node carrying a nested graph, and `flatten` is idempotent:
`flatten(flatten(G)) = flatten(G)`. -/
theorem c4_flatten_idempotent (G : FlowGraph) (h : flattenWF G = true) :
    flattenG (flattenG G) = flattenG G ∧ noComposite (flattenG G) = true := by
  have h2 := (flattenG_flat_sentinels G h).1
  exact ⟨flattenG_of_flat _ h2, h2⟩

/-- Depth-one nested graph: one atomic call node inside the sentinels. -/
def c4K : FlowGraph :=
  .mk ("__in__") ("__out__")
    [(("__in__"), Option.none), (("__out__"), Option.none), (("k"), Option.none)] []

/-- A well-formed graph with one composite node holding `c4K`. -/
def c4G : FlowGraph :=
  .mk ("__in__") ("__out__")
    [(("__in__"), Option.none), (("__out__"), Option.none), (("c"), some c4K)] []

theorem c4_flatten_idempotent_witness :
    flattenWF c4G = true
    ∧ (flattenG (flattenG c4G) = flattenG c4G ∧ noComposite (flattenG c4G) = true) :=
  ⟨by decide, c4_flatten_idempotent c4G (by decide)⟩

/-- Every nested graph of `G` (at the top level) is itself composite-free
(nesting depth at most one). -/
def subsFlat (G : FlowGraph) : Bool :=
  G.nodes.all (fun p => match p.2 with
    | some H => noComposite H
    | Option.none => true)

/-- Count of composite nodes appearing inside the top-level nested
graphs (a depth-two observation of the graph). -/
def subCompositeCount (G : FlowGraph) : Nat :=
  (G.nodes.map (fun p => match p.2 with
    | some H => (H.nodes.filter (fun q => !q.2.isNone)).length
    | Option.none => 0)).sum

/-- Depth-two graph: `c8G` holds composite node `a` whose nested graph
`c8H` itself holds composite node `b` (with nested graph `c4K`). -/
def c8H : FlowGraph :=
  .mk ("__in__") ("__out__")
    [(("__in__"), Option.none), (("__out__"), Option.none), (("b"), some c4K)] []

def c8G : FlowGraph :=
  .mk ("__in__") ("__out__")
    [(("__in__"), Option.none), (("__out__"), Option.none), (("a"), some c8H)] []

/-- C8 (counterexample): `flatten(G, copy=True)` does NOT leave the input
unchanged for every input.  `graph.copy()` shares the nested graph objects
with the input, and the recursive `flatten(subgraph, copy=False)` mutates
them in place; on the depth-two graph `c8G` the nested graph of node `a`
is flattened in place (its composite node `b` is inlined and removed), so
the input object after the call differs from the original. -/
theorem c8_flatten_mutates_input : ¬ (flattenInputEffect c8G = c8G) := by
  intro h
  exact absurd (show (0 : Nat) = 1 from congrArg subCompositeCount h) (by decide)

/-- C8 (amended): `join(first, second, copy=True)` writes only to the fresh
copy (modelled by `join` being a pure function of its argument values), and
`flatten(G, copy=True)` leaves the input graph unchanged exactly when the
sharing is harmless: when no nested graph of `G` itself contains a
composite node, the in-place recursive flattening of the shared nested
graphs is the identity, so the input's post-state equals the input. -/
theorem c8_flatten_preserves_input_depth_one (G : FlowGraph)
    (h : subsFlat G = true) : flattenInputEffect G = G := by
  cases G with
  | mk i o ns es =>
      rw [flattenInputEffect]
      have hsub : ∀ p ∈ ns, ∀ H, p.2 = some H → noComposite H = true := by
        intro p hp H hH
        have := (List.all_eq_true.mp h) p hp
        rw [hH] at this
        exact this
      rw [flattenSubs_of_subflat ns hsub
        (fun p hp H hH => flattenG_of_flat H (hsub p hp H hH))]

theorem c8_flatten_preserves_input_depth_one_witness :
    subsFlat c4G = true ∧ flattenInputEffect c4G = c4G :=
  ⟨by decide, c8_flatten_preserves_input_depth_one c4G (by decide)⟩

theorem hasNode_map_presFst (f : String × Option FlowGraph → String × Option FlowGraph)
    (hf : ∀ p, (f p).1 = p.1) (ns : List (String × Option FlowGraph)) (y : String) :
    hasNode (ns.map f) y = hasNode ns y := by
  induction ns with
  | nil => rfl
  | cons p rest ih =>
      simp only [List.map_cons, hasNode, List.any_cons] at *
      rw [hf p, ih]

theorem hasNode_append (ns ms : List (String × Option FlowGraph)) (y : String) :
    hasNode (ns ++ ms) y = (hasNode ns y || hasNode ms y) := by
  simp [hasNode, List.any_append]

theorem hasNode_addNode_mono (ns : List (String × Option FlowGraph))
    (x y : String) (d : Option FlowGraph) (h : hasNode ns y = true) :
    hasNode (addNode ns x d) y = true := by
  unfold addNode
  split
  · rw [hasNode_map_presFst _ (fun p => by split <;> rfl)]
    exact h
  · rw [hasNode_append, h, Bool.true_or]

theorem hasNode_ensureNode_mono (ns : List (String × Option FlowGraph))
    (x y : String) (h : hasNode ns y = true) :
    hasNode (ensureNode ns x) y = true := by
  unfold ensureNode
  split
  · exact h
  · rw [hasNode_append, h, Bool.true_or]

theorem hasNode_addEdgeG_mono (G : FlowGraph) (u v y : String) (d : EdgeData)
    (h : hasNode G.nodes y = true) : hasNode (addEdgeG G u v d).nodes y = true := by
  rw [nodes_addEdgeG]
  exact hasNode_ensureNode_mono _ v y (hasNode_ensureNode_mono _ u y h)

theorem hasNode_foldl_mono {α : Type} (f : FlowGraph → α → FlowGraph) (y : String)
    (hf : ∀ g a, hasNode g.nodes y = true → hasNode (f g a).nodes y = true) :
    ∀ (l : List α) (G : FlowGraph), hasNode G.nodes y = true →
      hasNode ((l.foldl f G)).nodes y = true := by
  intro l
  induction l with
  | nil => intro G h; exact h
  | cons a rest ih => intro G h; exact ih (f G a) (hf G a h)

theorem hasNode_copy_mono (source G : FlowGraph) (y : String)
    (h : hasNode G.nodes y = true) :
    hasNode (copy_flow_graph source G).nodes y = true := by
  unfold copy_flow_graph
  dsimp only
  apply hasNode_foldl_mono
  · intro g e hg
    dsimp only
    split
    · exact hg
    · exact hasNode_addEdgeG_mono g _ _ _ _ hg
  · apply hasNode_foldl_mono
    · intro g p hg
      dsimp only
      split
      · exact hg
      · rw [nodes_withNodes]
        exact hasNode_addNode_mono _ _ _ _ hg
    · exact h

theorem attrsOf_join (first second : FlowGraph) :
    attrsOf (join first second) = attrsOf first := by
  unfold join
  dsimp only
  refine (attrsOf_foldl _ ?_ _ _).trans ((attrsOf_foldl _ ?_ _ _).trans (attrsOf_copy _ _))
  · intro g e
    dsimp only
    refine (attrsOf_addEdgeG _ _ _ _).trans ?_
    split
    · exact attrsOf_removeEdgeKey _ _ _ _
    · rfl
  · intro g e
    dsimp only
    split
    · exact attrsOf_addEdgeG _ _ _ _
    · exact attrsOf_addEdgeG _ _ _ _

theorem hasNode_join_mono (first second : FlowGraph) (y : String)
    (h : hasNode first.nodes y = true) :
    hasNode (join first second).nodes y = true := by
  unfold join
  dsimp only
  apply hasNode_foldl_mono
  · intro g e hg
    dsimp only
    apply hasNode_addEdgeG_mono
    split
    · rw [nodes_removeEdgeKey]; exact hg
    · exact hg
  · apply hasNode_foldl_mono
    · intro g e hg
      dsimp only
      split
      · exact hasNode_addEdgeG_mono g _ _ _ _ hg
      · exact hasNode_addEdgeG_mono g _ _ _ _ hg
    · exact hasNode_copy_mono second first y h

theorem nodes_graphml_roundtrip (outputs : Option String) (G : FlowGraph) :
    (flow_graph_from_graphml (flow_graph_to_graphml outputs G)).nodes = G.nodes := by
  unfold flow_graph_from_graphml flow_graph_to_graphml
  dsimp only
  rw [nodes_withEdges, nodes_withEdges]

theorem attrsOf_graphml_roundtrip (outputs : Option String) (G : FlowGraph) :
    attrsOf (flow_graph_from_graphml (flow_graph_to_graphml outputs G)) = attrsOf G := by
  unfold flow_graph_from_graphml flow_graph_to_graphml
  dsimp only
  exact (attrsOf_withEdges _ _).trans (attrsOf_withEdges _ _)

/-- C9: every graph produced by `new_flow_graph` contains both sentinel
nodes, and each graph-algebra operation yields a graph that still contains
the sentinels of the graph whose identity it extends (`dest` for
`copy_flow_graph`, the graph itself for `flatten` and the GraphML
round-trip, `first` for `join`), with the graph-level
`input_node`/`output_node` attributes unchanged; no operation removes a
sentinel. -/
theorem c9_sentinels_preserved
    (G dest source first second : FlowGraph) (outputs : Option String)
    (hG : flattenWF G = true)
    (hdi : hasNode dest.nodes dest.inputN = true)
    (hdo : hasNode dest.nodes dest.outputN = true)
    (hfi : hasNode first.nodes first.inputN = true)
    (hfo : hasNode first.nodes first.outputN = true) :
    (hasNode new_flow_graph.nodes new_flow_graph.inputN = true
      ∧ hasNode new_flow_graph.nodes new_flow_graph.outputN = true)
    ∧ (hasNode (copy_flow_graph source dest).nodes dest.inputN = true
      ∧ hasNode (copy_flow_graph source dest).nodes dest.outputN = true
      ∧ attrsOf (copy_flow_graph source dest) = attrsOf dest)
    ∧ (hasNode (flattenG G).nodes G.inputN = true
      ∧ hasNode (flattenG G).nodes G.outputN = true
      ∧ attrsOf (flattenG G) = attrsOf G)
    ∧ (hasNode (join first second).nodes first.inputN = true
      ∧ hasNode (join first second).nodes first.outputN = true
      ∧ attrsOf (join first second) = attrsOf first)
    ∧ (hasNode (flow_graph_from_graphml (flow_graph_to_graphml outputs G)).nodes
          G.inputN = true
      ∧ hasNode (flow_graph_from_graphml (flow_graph_to_graphml outputs G)).nodes
          G.outputN = true
      ∧ attrsOf (flow_graph_from_graphml (flow_graph_to_graphml outputs G)) = attrsOf G) := by
  have hfl := flattenG_flat_sentinels G hG
  refine ⟨⟨by decide, by decide⟩, ?_, ?_, ?_, ?_⟩
  · exact ⟨hasNode_copy_mono source dest _ hdi, hasNode_copy_mono source dest _ hdo,
      attrsOf_copy source dest⟩
  · refine ⟨?_, ?_, attrsOf_flattenG G⟩
    · rw [hasNode_iff]
      exact List.mem_map.mpr ⟨_, hfl.2.1, rfl⟩
    · rw [hasNode_iff]
      exact List.mem_map.mpr ⟨_, hfl.2.2, rfl⟩
  · exact ⟨hasNode_join_mono first second _ hfi, hasNode_join_mono first second _ hfo,
      attrsOf_join first second⟩
  · rw [nodes_graphml_roundtrip]
    have hparts := flattenWF_parts G hG
    refine ⟨?_, ?_, attrsOf_graphml_roundtrip outputs G⟩
    · rw [hasNode_iff]
      exact List.mem_map.mpr ⟨_, hparts.2.1, rfl⟩
    · rw [hasNode_iff]
      exact List.mem_map.mpr ⟨_, hparts.2.2.1, rfl⟩

theorem c9_sentinels_preserved_witness :
    (flattenWF c4G = true
      ∧ hasNode new_flow_graph.nodes new_flow_graph.inputN = true
      ∧ hasNode new_flow_graph.nodes new_flow_graph.outputN = true)
    ∧ ((hasNode new_flow_graph.nodes new_flow_graph.inputN = true
        ∧ hasNode new_flow_graph.nodes new_flow_graph.outputN = true)
      ∧ (hasNode (copy_flow_graph c4K new_flow_graph).nodes new_flow_graph.inputN = true
        ∧ hasNode (copy_flow_graph c4K new_flow_graph).nodes new_flow_graph.outputN = true
        ∧ attrsOf (copy_flow_graph c4K new_flow_graph) = attrsOf new_flow_graph)
      ∧ (hasNode (flattenG c4G).nodes c4G.inputN = true
        ∧ hasNode (flattenG c4G).nodes c4G.outputN = true
        ∧ attrsOf (flattenG c4G) = attrsOf c4G)
      ∧ (hasNode (join new_flow_graph c4K).nodes new_flow_graph.inputN = true
        ∧ hasNode (join new_flow_graph c4K).nodes new_flow_graph.outputN = true
        ∧ attrsOf (join new_flow_graph c4K) = attrsOf new_flow_graph)
      ∧ (hasNode (flow_graph_from_graphml
            (flow_graph_to_graphml (some ("all")) c4G)).nodes c4G.inputN = true
        ∧ hasNode (flow_graph_from_graphml
            (flow_graph_to_graphml (some ("all")) c4G)).nodes c4G.outputN = true
        ∧ attrsOf (flow_graph_from_graphml
            (flow_graph_to_graphml (some ("all")) c4G)) = attrsOf c4G)) :=
  ⟨⟨by decide, by decide, by decide⟩,
    c9_sentinels_preserved c4G new_flow_graph c4K new_flow_graph c4K (some ("all"))
      (by decide) (by decide) (by decide) (by decide) (by decide)⟩

/-! ### C5: GraphML round-trip -/

theorem edges_withEdges (G : FlowGraph) (es : List Edge) :
    (G.withEdges es).edges = es := by
  cases G; rfl

/-- The per-edge effect of `flow_graph_from_graphml`: strip `sourceport`
from the input sentinel's out-edges and `targetport` from the output
sentinel's in-edges. -/
def stripE (iN oN : String) (e : Edge) : Edge :=
  let d1 := if e.src == iN then { e.data with sourceport := Option.none } else e.data
  let d2 := if e.tgt == oN then { d1 with targetport := Option.none } else d1
  { e with data := d2 }

theorem from_graphml_edges (outer : Outer) :
    (flow_graph_from_graphml outer).edges =
      outer.rootGraph.edges.map
        (stripE outer.rootGraph.inputN outer.rootGraph.outputN) := by
  unfold flow_graph_from_graphml
  rw [edges_withEdges]
  rfl

theorem inPortStep_done (iN oN : String) (st : InPortState) (e : Edge) :
    ∃ e', (inPortStep iN st e).doneEdges = e' :: st.doneEdges
      ∧ stripE iN oN e' = stripE iN oN e := by
  unfold inPortStep
  by_cases hs : (e.src == iN) = true
  · rw [if_pos hs]
    cases hL : st.inputMap.find? (fun p => p.1 == e.data.objId) with
    | some p =>
        refine ⟨_, rfl, ?_⟩
        cases e with
        | mk s t k d =>
            cases d with
            | mk oid sp tp nt =>
                simp only at hs
                simp [stripE, hs]
    | none =>
        refine ⟨_, rfl, ?_⟩
        cases e with
        | mk s t k d =>
            cases d with
            | mk oid sp tp nt =>
                simp only at hs
                simp [stripE, hs]
  · rw [if_neg hs]
    exact ⟨e, rfl, rfl⟩

theorem inFold_strip (iN oN : String) :
    ∀ (es : List Edge) (st : InPortState),
      (((es.foldl (inPortStep iN) st).doneEdges).reverse).map (stripE iN oN)
        = ((st.doneEdges).reverse).map (stripE iN oN) ++ es.map (stripE iN oN) := by
  intro es
  induction es with
  | nil => intro st; simp
  | cons e rest ih =>
      intro st
      rw [List.foldl_cons, ih]
      obtain ⟨e', hdone, hstrip⟩ := inPortStep_done iN oN st e
      rw [hdone]
      simp [hstrip]

theorem outPortStep_done_all (iN oN : String) (es0 : List Edge) (st : OutPortState) (e : Edge) :
    ∃ e', (outPortStep (some ("all")) oN es0 st e).doneEdges = e' :: st.doneEdges
      ∧ stripE iN oN e' = stripE iN oN e := by
  unfold outPortStep
  by_cases ht : (e.tgt == oN) = true
  · rw [if_pos ht]
    have h1 : ((some ("all") : Option String) == some ("none")) = false := by decide
    have h2 : ((some ("all") : Option String) == some ("simplify")) = false := by decide
    rw [h1, h2]
    simp only [Bool.false_and, Bool.false_or, Bool.false_eq_true, if_false]
    refine ⟨_, rfl, ?_⟩
    cases e with
    | mk s t k d =>
        cases d with
        | mk oid sp tp nt =>
            simp only at ht
            by_cases h3 : (s == iN) = true <;> simp [stripE, ht, h3]
  · rw [if_neg ht]
    exact ⟨e, rfl, rfl⟩

theorem outFold_strip_all (iN oN : String) (es0 : List Edge) :
    ∀ (es : List Edge) (st : OutPortState),
      (((es.foldl (outPortStep (some ("all")) oN es0) st).doneEdges).reverse).map (stripE iN oN)
        = ((st.doneEdges).reverse).map (stripE iN oN) ++ es.map (stripE iN oN) := by
  intro es
  induction es with
  | nil => intro st; simp
  | cons e rest ih =>
      intro st
      rw [List.foldl_cons, ih]
      obtain ⟨e', hdone, hstrip⟩ := outPortStep_done_all iN oN es0 st e
      rw [hdone]
      simp [hstrip]

/-- Edges out of the input sentinel carry no `sourceport` and edges into
the output sentinel carry no `targetport` (the spec's pre-serialization
invariant on well-formed flow graphs). -/
def portsClean (G : FlowGraph) : Bool :=
  G.edges.all (fun e =>
    (!(e.src == G.inputN) || e.data.sourceport.isNone)
    && (!(e.tgt == G.outputN) || e.data.targetport.isNone))

theorem stripE_id (iN oN : String) (e : Edge)
    (hs : (e.src == iN) = true → e.data.sourceport = Option.none)
    (ht : (e.tgt == oN) = true → e.data.targetport = Option.none) :
    stripE iN oN e = e := by
  cases e with
  | mk s t k d =>
      cases d with
      | mk oid sp tp nt =>
          simp only at hs ht
          unfold stripE
          by_cases h1 : (s == iN) = true
          · have hsp := hs h1
            simp only at hsp
            subst hsp
            by_cases h2 : (t == oN) = true
            · have htp := ht h2
              simp only at htp
              subst htp
              simp [h1, h2]
            · simp [h1, h2]
          · by_cases h2 : (t == oN) = true
            · have htp := ht h2
              simp only at htp
              subst htp
              simp [h1, h2]
            · simp [h1, h2]

theorem withEdges_withEdges (G : FlowGraph) (X Y : List Edge) :
    (G.withEdges X).withEdges Y = G.withEdges Y := by
  cases G; rfl

theorem withEdges_self (G : FlowGraph) : G.withEdges G.edges = G := by
  cases G; rfl

theorem inputN_withEdges (G : FlowGraph) (es : List Edge) :
    (G.withEdges es).inputN = G.inputN := by
  cases G; rfl

theorem outputN_withEdges (G : FlowGraph) (es : List Edge) :
    (G.withEdges es).outputN = G.outputN := by
  cases G; rfl

theorem from_graphml_eq (outer : Outer) :
    flow_graph_from_graphml outer =
      outer.rootGraph.withEdges (outer.rootGraph.edges.map
        (stripE outer.rootGraph.inputN outer.rootGraph.outputN)) := rfl

theorem to_graphml_edges_all (G : FlowGraph) :
    ((flow_graph_to_graphml (some ("all")) G).rootGraph.edges).map
        (stripE G.inputN G.outputN)
      = G.edges.map (stripE G.inputN G.outputN) := by
  unfold flow_graph_to_graphml
  dsimp only
  rw [edges_withEdges]
  rw [outFold_strip_all G.inputN G.outputN]
  rw [inFold_strip G.inputN G.outputN]
  simp

/-- C5: for a well-formed flow graph (no `sourceport` on the input
sentinel's out-edges, no `targetport` on the output sentinel's in-edges —
exactly the attributes serialization adds and deserialization strips),
`flow_graph_from_graphml(flow_graph_to_graphml(G, outputs='all'))` is
structurally equal to `G`: node list, edge list (sources, targets, keys,
object ids and all other attributes) and graph attributes are unchanged. -/
theorem c5_graphml_roundtrip (G : FlowGraph) (h : portsClean G = true) :
    flow_graph_from_graphml (flow_graph_to_graphml (some ("all")) G) = G := by
  have hclean : ∀ e ∈ G.edges, stripE G.inputN G.outputN e = e := by
    intro e he
    have hb := (List.all_eq_true.mp h) e he
    rw [Bool.and_eq_true] at hb
    refine stripE_id G.inputN G.outputN e ?_ ?_
    · intro hsi
      have h1 := hb.1
      rw [hsi] at h1
      simpa [Option.isNone_iff_eq_none] using h1
    · intro hto
      have h2 := hb.2
      rw [hto] at h2
      simpa [Option.isNone_iff_eq_none] using h2
  have hmapped := to_graphml_edges_all G
  rw [from_graphml_eq]
  obtain ⟨X, hX⟩ : ∃ X, (flow_graph_to_graphml (some ("all")) G).rootGraph
      = G.withEdges X := ⟨_, rfl⟩
  rw [hX] at hmapped ⊢
  rw [edges_withEdges] at hmapped
  rw [inputN_withEdges, outputN_withEdges, edges_withEdges, withEdges_withEdges]
  rw [hmapped]
  rw [List.map_congr_left hclean]
  simp only [List.map_id_fun', id]
  exact withEdges_self G

/-- A well-formed concrete graph: `in -> A` (object 1), `A -> out`
(object 2), ports clean. -/
def c5G : FlowGraph :=
  .mk ("__in__") ("__out__")
    [(("__in__"), Option.none), (("__out__"), Option.none), (("A"), Option.none)]
    [Edge.mk ("__in__") ("A") 0 (EdgeData.mk 1 Option.none (some ("t")) Option.none),
     Edge.mk ("A") ("__out__") 0 (EdgeData.mk 2 (some ("s")) Option.none Option.none)]

theorem c5_graphml_roundtrip_witness :
    portsClean c5G = true
    ∧ flow_graph_from_graphml (flow_graph_to_graphml (some ("all")) c5G) = c5G :=
  ⟨by decide, c5_graphml_roundtrip c5G (by decide)⟩

/-! ### C6: the `simplify` pruning policy -/

/-- The port-independent skeleton of an edge: endpoints, key, object id. -/
def skel (e : Edge) : String × String × Nat × Nat :=
  (e.src, e.tgt, e.key, e.data.objId)

theorem ncopies_of_skel_eq (oN : String) :
    ∀ (es es' : List Edge), es.map skel = es'.map skel →
      ∀ (s : String) (objId : Nat), ncopies oN es s objId = ncopies oN es' s objId := by
  intro es
  induction es with
  | nil =>
      intro es' h s objId
      cases es' with
      | nil => rfl
      | cons x xs => cases h
  | cons e rest ih =>
      intro es' h s objId
      cases es' with
      | nil => cases h
      | cons e' rest' =>
          simp only [List.map_cons, List.cons.injEq] at h
          have hs : e'.src = e.src ∧ e'.tgt = e.tgt ∧ e'.key = e.key
              ∧ e'.data.objId = e.data.objId := by
            have h1 := h.1
            unfold skel at h1
            exact ⟨(congrArg (fun q => q.1) h1).symm,
              (congrArg (fun q => q.2.1) h1).symm,
              (congrArg (fun q => q.2.2.1) h1).symm,
              (congrArg (fun q => q.2.2.2) h1).symm⟩
          unfold ncopies
          simp only [List.filter_cons]
          rw [hs.1, hs.2.1, hs.2.2.2]
          have hrec := ih rest' h.2 s objId
          unfold ncopies at hrec
          split
          · simp [hrec]
          · exact hrec

theorem inPortStep_skel (iN : String) (st : InPortState) (e : Edge) :
    ∃ e', (inPortStep iN st e).doneEdges = e' :: st.doneEdges ∧ skel e' = skel e := by
  unfold inPortStep
  by_cases hs : (e.src == iN) = true
  · rw [if_pos hs]
    cases hL : st.inputMap.find? (fun p => p.1 == e.data.objId) with
    | some p => exact ⟨_, rfl, rfl⟩
    | none => exact ⟨_, rfl, rfl⟩
  · rw [if_neg hs]
    exact ⟨e, rfl, rfl⟩

theorem inFold_skel (iN : String) :
    ∀ (es : List Edge) (st : InPortState),
      (((es.foldl (inPortStep iN) st).doneEdges).reverse).map skel
        = ((st.doneEdges).reverse).map skel ++ es.map skel := by
  intro es
  induction es with
  | nil => intro st; simp
  | cons e rest ih =>
      intro st
      rw [List.foldl_cons, ih]
      obtain ⟨e', hdone, hskel⟩ := inPortStep_skel iN st e
      rw [hdone]
      simp [hskel]

/-- The keep-condition of the `simplify` pruning, as a function of an
edge's skeleton: an in-edge of the output sentinel survives unless its
object also leaves the same source toward some other node. -/
def keepSimplify (oN : String) (esRef : List Edge)
    (sk : String × String × Nat × Nat) : Bool :=
  !(sk.2.1 == oN && decide (0 < ncopies oN esRef sk.1 sk.2.2.2))

theorem outPortStep_skel_simplify (oN : String) (es0 : List Edge)
    (st : OutPortState) (e : Edge) :
    ((outPortStep (some ("simplify")) oN es0 st e).doneEdges
      = st.doneEdges ∧ keepSimplify oN es0 (skel e) = false)
    ∨ (∃ e', (outPortStep (some ("simplify")) oN es0 st e).doneEdges
        = e' :: st.doneEdges ∧ skel e' = skel e
        ∧ keepSimplify oN es0 (skel e) = true) := by
  unfold outPortStep
  by_cases ht : (e.tgt == oN) = true
  · rw [if_pos ht]
    have h1 : ((some ("simplify") : Option String) == some ("none")) = false := by decide
    have h2 : ((some ("simplify") : Option String) == some ("simplify")) = true := by decide
    rw [h1, h2]
    simp only [Bool.true_and, Bool.false_or]
    by_cases hc : (0 < ncopies oN es0 e.src e.data.objId)
    · left
      constructor
      · rw [if_pos (by simpa using hc)]
      · unfold keepSimplify
        show (!(e.tgt == oN && decide (0 < ncopies oN es0 e.src e.data.objId))) = false
        rw [ht, decide_eq_true hc]
        rfl
    · right
      refine ⟨{ e with data := { e.data with
          targetport := some (("out:") ++ toString (st.noutputs + 1)) } }, ?_, rfl, ?_⟩
      · rw [if_neg (by simpa using hc)]
      · unfold keepSimplify
        show (!(e.tgt == oN && decide (0 < ncopies oN es0 e.src e.data.objId))) = true
        rw [ht, decide_eq_false hc]
        rfl
  · rw [if_neg ht]
    right
    refine ⟨e, rfl, rfl, ?_⟩
    unfold keepSimplify
    show (!(e.tgt == oN && decide (0 < ncopies oN es0 e.src e.data.objId))) = true
    rw [Bool.eq_false_iff.mpr ht]
    rfl

theorem outFold_skel_simplify (oN : String) (es0 : List Edge) :
    ∀ (es : List Edge) (st : OutPortState),
      (((es.foldl (outPortStep (some ("simplify")) oN es0) st).doneEdges).reverse).map skel
        = ((st.doneEdges).reverse).map skel
          ++ ((es.filter (fun e => keepSimplify oN es0 (skel e))).map skel) := by
  intro es
  induction es with
  | nil => intro st; simp
  | cons e rest ih =>
      intro st
      rw [List.foldl_cons, ih, List.filter_cons]
      rcases outPortStep_skel_simplify oN es0 st e with ⟨hdone, hkeep⟩ | ⟨e', hdone, hskel, hkeep⟩
      · rw [hdone, hkeep]
        simp
      · rw [hdone, hkeep]
        simp [hskel]

theorem filter_skel_eq (q : String × String × Nat × Nat → Bool) :
    ∀ (es es' : List Edge), es.map skel = es'.map skel →
      (es.filter (fun e => q (skel e))).map skel
        = (es'.filter (fun e => q (skel e))).map skel := by
  intro es
  induction es with
  | nil =>
      intro es' h
      cases es' with
      | nil => rfl
      | cons x xs => cases h
  | cons e rest ih =>
      intro es' h
      cases es' with
      | nil => cases h
      | cons e' rest' =>
          simp only [List.map_cons, List.cons.injEq] at h
          rw [List.filter_cons, List.filter_cons, h.1]
          split
          · simp only [List.map_cons]
            rw [h.1, ih rest' h.2]
          · exact ih rest' h.2

theorem to_graphml_skel_simplify (G : FlowGraph) :
    ((flow_graph_to_graphml (some ("simplify")) G).rootGraph.edges).map skel
      = (G.edges.filter (fun e => keepSimplify G.outputN G.edges (skel e))).map skel := by
  unfold flow_graph_to_graphml
  dsimp only
  rw [edges_withEdges]
  rw [outFold_skel_simplify G.outputN]
  have hin := inFold_skel G.inputN G.edges (InPortState.mk [] [] [] 0)
  simp only [List.reverse_nil, List.map_nil, List.nil_append] at hin
  have hnc : ∀ sk, keepSimplify G.outputN
      ((G.edges.foldl (inPortStep G.inputN) (InPortState.mk [] [] [] 0)).doneEdges.reverse) sk
      = keepSimplify G.outputN G.edges sk := by
    intro sk
    unfold keepSimplify
    rw [ncopies_of_skel_eq G.outputN _ _ hin]
  rw [List.filter_congr (fun e _ => hnc (skel e))]
  rw [filter_skel_eq (keepSimplify G.outputN G.edges) _ _ hin]
  simp

/-- C6: with `outputs='simplify'`, an edge into the output sentinel
carrying object `o` from node `src` is removed iff `o` also flows from
`src` to at least one non-sentinel node; every edge not into the output
sentinel is retained.  (Edges are compared by their port-independent
skeleton — endpoints, key, object id — since the surviving output edges
additionally receive a `targetport` name.)  Hypotheses: edge skeletons are
distinct (networkx parallel-edge keys are unique) and no edge enters the
input sentinel (the spec's flow-graph invariant), which makes `_ncopies`'s
"not the output sentinel" test agree with "a non-sentinel consumer". -/
theorem c6_simplify_pruning (G : FlowGraph) (e : Edge)
    (hnodup : (G.edges.map skel).Nodup)
    (hinp : G.edges.all (fun e2 => !(e2.tgt == G.inputN)) = true)
    (he : e ∈ G.edges) (heo : e.tgt = G.outputN) :
    (¬ (skel e ∈ ((flow_graph_to_graphml (some ("simplify")) G).rootGraph.edges).map skel)
      ↔ ∃ e2 ∈ G.edges, e2.src = e.src ∧ e2.data.objId = e.data.objId
          ∧ e2.tgt ≠ G.outputN ∧ e2.tgt ≠ G.inputN)
    ∧ ∀ e3 ∈ G.edges, e3.tgt ≠ G.outputN →
        skel e3 ∈ ((flow_graph_to_graphml (some ("simplify")) G).rootGraph.edges).map skel := by
  rw [to_graphml_skel_simplify]
  have hmem_iff : ∀ e0 ∈ G.edges,
      (skel e0 ∈ (G.edges.filter (fun x => keepSimplify G.outputN G.edges (skel x))).map skel
        ↔ keepSimplify G.outputN G.edges (skel e0) = true) := by
    intro e0 he0
    constructor
    · intro hm
      obtain ⟨e', he', hsk⟩ := List.mem_map.mp hm
      have he'G := List.mem_of_mem_filter he'
      have heq : e' = e0 := List.inj_on_of_nodup_map hnodup he'G he0 hsk
      rw [← heq]
      simpa using List.of_mem_filter he'
    · intro hk
      exact List.mem_map.mpr ⟨e0, List.mem_filter.mpr ⟨he0, hk⟩, rfl⟩
  have hiff : (0 < ncopies G.outputN G.edges e.src e.data.objId)
      ↔ ∃ e2 ∈ G.edges, e2.src = e.src ∧ e2.data.objId = e.data.objId
          ∧ e2.tgt ≠ G.outputN ∧ e2.tgt ≠ G.inputN := by
    unfold ncopies
    rw [← List.countP_eq_length_filter, List.countP_pos_iff]
    constructor
    · rintro ⟨e2, he2, hp⟩
      rw [Bool.and_eq_true, Bool.and_eq_true] at hp
      refine ⟨e2, he2, ?_, ?_, ?_, ?_⟩
      · simpa using hp.1.1
      · simpa using hp.2
      · simpa [bne_iff_ne] using hp.1.2
      · have h3 := (List.all_eq_true.mp hinp) e2 he2
        simpa using h3
    · rintro ⟨e2, he2, hsrc, hid, htgt, _⟩
      refine ⟨e2, he2, ?_⟩
      rw [Bool.and_eq_true, Bool.and_eq_true]
      exact ⟨⟨by simpa using hsrc, by simpa [bne_iff_ne] using htgt⟩, by simpa using hid⟩
  refine ⟨?_, ?_⟩
  · rw [hmem_iff e he]
    have hKrw : keepSimplify G.outputN G.edges (skel e)
        = !((G.outputN == G.outputN)
            && decide (0 < ncopies G.outputN G.edges e.src e.data.objId)) := by
      show (!(e.tgt == G.outputN
          && decide (0 < ncopies G.outputN G.edges e.src e.data.objId))) = _
      rw [heo]
    rw [hKrw]
    simp only [beq_self_eq_true, Bool.true_and, Bool.not_eq_true',
      decide_eq_false_iff_not, Decidable.not_not]
    exact hiff
  · intro e3 he3 ht3
    apply List.mem_map.mpr
    refine ⟨e3, List.mem_filter.mpr ⟨he3, ?_⟩, rfl⟩
    show (!(e3.tgt == G.outputN
        && decide (0 < ncopies G.outputN G.edges e3.src e3.data.objId))) = true
    rw [beq_eq_false_iff_ne.mpr ht3]
    rfl

/-- The scenario graph of the claim: node `A` produces object 1, consumed
by node `B`, and the same object also reaches the output sentinel. -/
def c6G : FlowGraph :=
  .mk ("__in__") ("__out__")
    [(("__in__"), Option.none), (("__out__"), Option.none),
     (("A"), Option.none), (("B"), Option.none)]
    [Edge.mk ("A") ("B") 0 (EdgeData.mk 1 (some ("p1")) (some ("q1")) Option.none),
     Edge.mk ("A") ("__out__") 0 (EdgeData.mk 1 (some ("p2")) Option.none Option.none)]

/-- The sentinel edge of the scenario: `A -> out` carrying object 1. -/
def c6E : Edge :=
  Edge.mk ("A") ("__out__") 0 (EdgeData.mk 1 (some ("p2")) Option.none Option.none)

theorem c6_simplify_pruning_witness :
    ((c6G.edges.map skel).Nodup
      ∧ c6G.edges.all (fun e2 => !(e2.tgt == c6G.inputN)) = true
      ∧ c6E ∈ c6G.edges ∧ c6E.tgt = c6G.outputN)
    ∧ ((¬ (skel c6E ∈
          ((flow_graph_to_graphml (some ("simplify")) c6G).rootGraph.edges).map skel)
        ↔ ∃ e2 ∈ c6G.edges, e2.src = c6E.src ∧ e2.data.objId = c6E.data.objId
            ∧ e2.tgt ≠ c6G.outputN ∧ e2.tgt ≠ c6G.inputN)
      ∧ ∀ e3 ∈ c6G.edges, e3.tgt ≠ c6G.outputN →
          skel e3 ∈
            ((flow_graph_to_graphml (some ("simplify")) c6G).rootGraph.edges).map skel) :=
  ⟨⟨by decide, by decide, by decide, by decide⟩,
    c6_simplify_pruning c6G c6E (by decide) (by decide) (by decide) (by decide)⟩

/-! ### C1: join connects producers to consumers -/

theorem edges_addEdgeG (G : FlowGraph) (u v : String) (d : EdgeData) :
    (addEdgeG G u v d).edges = G.edges ++ [Edge.mk u v (freshKey G.edges u v) d] := by
  cases G; rfl

theorem edges_withNodes (G : FlowGraph) (ns : List (String × Option FlowGraph)) :
    (G.withNodes ns).edges = G.edges := by
  cases G; rfl

theorem edges_removeEdgeKey (G : FlowGraph) (u v : String) (k : Nat) :
    (removeEdgeKey G u v k).edges =
      G.edges.filter (fun e => !(e.src == u && e.tgt == v && e.key == k)) := by
  cases G; rfl

theorem find?_append_left {α : Type} (p : α → Bool) (l l' : List α) (a : α)
    (h : l.find? p = some a) : (l ++ l').find? p = some a := by
  rw [List.find?_append, h]
  rfl

/-- On a list whose `(src, tgt, key)` triples are distinct, the triple
search used by `join` finds exactly the member with that triple. -/
theorem find?_triple_of_mem (es : List Edge) (eA : Edge)
    (hnd : (es.map (fun e => (e.src, e.tgt, e.key))).Nodup) (hm : eA ∈ es) :
    es.find? (fun x => x.src == eA.src && x.tgt == eA.tgt && x.key == eA.key)
      = some eA := by
  induction es with
  | nil => cases hm
  | cons x rest ih =>
      simp only [List.map_cons, List.nodup_cons] at hnd
      by_cases hx : (x.src == eA.src && x.tgt == eA.tgt && x.key == eA.key) = true
      · rw [List.find?_cons, hx]
        rw [Bool.and_eq_true, Bool.and_eq_true] at hx
        have htr : (x.src, x.tgt, x.key) = (eA.src, eA.tgt, eA.key) := by
          have h1 : x.src = eA.src := by simpa using hx.1.1
          have h2 : x.tgt = eA.tgt := by simpa using hx.1.2
          have h3 : x.key = eA.key := by simpa using hx.2
          rw [h1, h2, h3]
        rcases List.mem_cons.mp hm with he | he
        · exact congrArg some he.symm
        · exact absurd (htr ▸ List.mem_map.mpr ⟨eA, he, rfl⟩) hnd.1
      · have hx' : (x.src == eA.src && x.tgt == eA.tgt && x.key == eA.key) = false :=
          Bool.eq_false_iff.mpr hx
        rw [List.find?_cons, hx']
        rcases List.mem_cons.mp hm with he | he
        · exfalso
          apply hx
          rw [he]
          simp
        · exact ih hnd.2 he

/-- The output table of `first` resolves an object id to the unique output
edge carrying it. -/
theorem outputTableLookup_unique (first : FlowGraph) (eA : Edge) (o : Nat)
    (hm : eA ∈ first.edges) (htgt : eA.tgt = first.outputN) (hid : eA.data.objId = o)
    (huniq : ∀ e ∈ first.edges, e.tgt = first.outputN → e.data.objId = o → e = eA) :
    outputTableLookup first o = some (eA.src, eA.key) := by
  unfold outputTableLookup
  cases hF : (first.edges.filter (fun e => e.tgt == first.outputN)).reverse.find?
      (fun e => e.data.objId == o) with
  | none =>
      exfalso
      have hmem : eA ∈ (first.edges.filter (fun e => e.tgt == first.outputN)).reverse := by
        rw [List.mem_reverse]
        exact List.mem_filter.mpr ⟨hm, by simpa using htgt⟩
      have := List.find?_eq_none.mp hF eA hmem
      simp [hid] at this
  | some e' =>
      have hmem := List.mem_of_find?_eq_some hF
      rw [List.mem_reverse] at hmem
      have he'1 := List.mem_of_mem_filter hmem
      have he'2 : e'.tgt = first.outputN := by
        simpa using List.of_mem_filter hmem
      have he'3 : e'.data.objId = o := by
        simpa using List.find?_some hF
      rw [huniq e' he'1 he'2 he'3]
      rfl

/-- One step of `join`'s input loop (named form of the fold body). -/
def joinInStep (first : FlowGraph) (g : FlowGraph) (e : Edge) : FlowGraph :=
  match outputTableLookup first e.data.objId with
  | some sk =>
      let sp :=
        ((g.edges.find? (fun e2 =>
            e2.src == sk.1 && e2.tgt == first.outputN && e2.key == sk.2)).map
          (fun e2 => e2.data.sourceport)).getD Option.none
      addEdgeG g sk.1 e.tgt { e.data with sourceport := sp }
  | Option.none => addEdgeG g first.inputN e.tgt e.data

/-- One step of `join`'s output loop (named form of the fold body). -/
def joinOutStep (first : FlowGraph) (g : FlowGraph) (e : Edge) : FlowGraph :=
  let g1 :=
    match outputTableLookup first e.data.objId with
    | some sk =>
        g.withEdges (g.edges.filter (fun e2 =>
          !(e2.src == sk.1 && e2.tgt == first.outputN && e2.key == sk.2)))
    | Option.none => g
  addEdgeG g1 e.src first.outputN e.data

theorem join_eq (first second : FlowGraph) :
    join first second =
      (second.edges.filter (fun e => e.tgt == second.outputN)).foldl
        (joinOutStep first)
        ((second.edges.filter (fun e => e.src == second.inputN)).foldl
          (joinInStep first) (copy_flow_graph second first)) := rfl

theorem joinInStep_edges_ext (first g : FlowGraph) (e : Edge) :
    ∃ tail, (joinInStep first g e).edges = g.edges ++ tail := by
  unfold joinInStep
  split
  · exact ⟨_, edges_addEdgeG _ _ _ _⟩
  · exact ⟨_, edges_addEdgeG _ _ _ _⟩

theorem find?_pres_inStep (first g : FlowGraph) (e : Edge) (q : Edge → Bool) (a : Edge)
    (h : g.edges.find? q = some a) : (joinInStep first g e).edges.find? q = some a := by
  obtain ⟨tail, ht⟩ := joinInStep_edges_ext first g e
  rw [ht]
  exact find?_append_left q _ tail a h

theorem mem_pres_inStep (first g : FlowGraph) (e e0 : Edge)
    (h : e0 ∈ g.edges) : e0 ∈ (joinInStep first g e).edges := by
  obtain ⟨tail, ht⟩ := joinInStep_edges_ext first g e
  rw [ht]
  exact List.mem_append_left tail h

theorem mem_fold_inStep (first : FlowGraph) :
    ∀ (l : List Edge) (g : FlowGraph) (e0 : Edge),
      e0 ∈ g.edges → e0 ∈ ((l.foldl (joinInStep first) g)).edges := by
  intro l
  induction l with
  | nil => intro g e0 h; exact h
  | cons x rest ih =>
      intro g e0 h
      exact ih (joinInStep first g x) e0 (mem_pres_inStep first g x e0 h)

theorem mem_pres_outStep (first g : FlowGraph) (e e0 : Edge)
    (ht0 : e0.tgt ≠ first.outputN) (h : e0 ∈ g.edges) :
    e0 ∈ (joinOutStep first g e).edges := by
  unfold joinOutStep
  dsimp only
  rw [edges_addEdgeG]
  apply List.mem_append_left
  split
  · rw [edges_withEdges]
    apply List.mem_filter.mpr
    refine ⟨h, ?_⟩
    have hb : (e0.tgt == first.outputN) = false := beq_eq_false_iff_ne.mpr ht0
    rw [Bool.and_comm (e0.src == _), Bool.and_assoc, hb]
    rfl
  · exact h

theorem mem_fold_outStep (first : FlowGraph) :
    ∀ (l : List Edge) (g : FlowGraph) (e0 : Edge),
      e0.tgt ≠ first.outputN → e0 ∈ g.edges →
      e0 ∈ ((l.foldl (joinOutStep first) g)).edges := by
  intro l
  induction l with
  | nil => intro g e0 _ h; exact h
  | cons x rest ih =>
      intro g e0 ht0 h
      exact ih (joinOutStep first g x) e0 ht0 (mem_pres_outStep first g x e0 ht0 h)

theorem joinIn_fold_adds (first : FlowGraph) (eA : Edge) (o : Nat)
    (htab : outputTableLookup first o = some (eA.src, eA.key)) :
    ∀ (l : List Edge) (g : FlowGraph) (e2 : Edge),
      e2 ∈ l → e2.data.objId = o →
      g.edges.find? (fun x =>
        x.src == eA.src && x.tgt == first.outputN && x.key == eA.key) = some eA →
      ∃ kk, Edge.mk eA.src e2.tgt kk { e2.data with sourceport := eA.data.sourceport }
        ∈ ((l.foldl (joinInStep first) g)).edges := by
  intro l
  induction l with
  | nil => intro g e2 hm; cases hm
  | cons x rest ih =>
      intro g e2 hm hid hfind
      rcases List.mem_cons.mp hm with he | he
      · subst he
        rw [List.foldl_cons]
        have hm2 : Edge.mk eA.src e2.tgt (freshKey g.edges eA.src e2.tgt)
            { e2.data with sourceport := eA.data.sourceport }
            ∈ (joinInStep first g e2).edges := by
          unfold joinInStep
          rw [hid, htab]
          dsimp only
          rw [hfind]
          rw [edges_addEdgeG]
          exact List.mem_append_right _ (List.mem_singleton.mpr rfl)
        exact ⟨_, mem_fold_inStep first rest _ _ hm2⟩
      · exact ih (joinInStep first g x) e2 he hid
          (find?_pres_inStep first g x _ eA hfind)

/-- No edge with the given (source, output-target, key) triple. -/
def noTriple (A oN : String) (k : Nat) (g : FlowGraph) : Prop :=
  ∀ e ∈ g.edges, ¬(e.src = A ∧ e.tgt = oN ∧ e.key = k)

theorem outStep_preserves_noTriple (first g : FlowGraph) (e : Edge) (A : String) (k : Nat)
    (hsrc : e.src ≠ A) (h : noTriple A first.outputN k g) :
    noTriple A first.outputN k (joinOutStep first g e) := by
  unfold joinOutStep
  dsimp only
  intro e0 he0
  rw [edges_addEdgeG] at he0
  rcases List.mem_append.mp he0 with he0 | he0
  · revert he0
    split
    · rw [edges_withEdges]
      intro he0
      exact h e0 (List.mem_of_mem_filter he0)
    · intro he0
      exact h e0 he0
  · rw [List.mem_singleton.mp he0]
    rintro ⟨h1, _, _⟩
    exact hsrc h1

theorem outStep_establishes_noTriple (first g : FlowGraph) (eo : Edge) (eA : Edge) (o : Nat)
    (htab : outputTableLookup first o = some (eA.src, eA.key))
    (hid : eo.data.objId = o) (hsrc : eo.src ≠ eA.src) :
    noTriple eA.src first.outputN eA.key (joinOutStep first g eo) := by
  unfold joinOutStep
  rw [hid, htab]
  dsimp only
  intro e0 he0
  rw [edges_addEdgeG] at he0
  rcases List.mem_append.mp he0 with he0 | he0
  · rw [edges_withEdges] at he0
    have hp := List.of_mem_filter he0
    simp only [Bool.not_eq_true'] at hp
    rintro ⟨h1, h2, h3⟩
    rw [Bool.and_eq_false_iff, Bool.and_eq_false_iff] at hp
    rcases hp with (hp | hp) | hp
    · exact absurd (by simpa using h1) (by simpa using hp)
    · exact absurd (by simpa using h2) (by simpa using hp)
    · exact absurd (by simpa using h3) (by simpa using hp)
  · rw [List.mem_singleton.mp he0]
    rintro ⟨h1, _, _⟩
    exact hsrc h1

theorem outFold_preserves_noTriple (first : FlowGraph) (A : String) (k : Nat) :
    ∀ (l : List Edge) (g : FlowGraph), (∀ x ∈ l, x.src ≠ A) →
      noTriple A first.outputN k g →
      noTriple A first.outputN k ((l.foldl (joinOutStep first) g)) := by
  intro l
  induction l with
  | nil => intro g _ h; exact h
  | cons x rest ih =>
      intro g hl h
      exact ih (joinOutStep first g x)
        (fun y hy => hl y (List.mem_cons_of_mem x hy))
        (outStep_preserves_noTriple first g x A k (hl x (List.mem_cons_self x rest)) h)

theorem outFold_removes (first : FlowGraph) (eA : Edge) (o : Nat)
    (htab : outputTableLookup first o = some (eA.src, eA.key)) :
    ∀ (l : List Edge) (g : FlowGraph) (eo : Edge),
      (∀ x ∈ l, x.src ≠ eA.src) → eo ∈ l → eo.data.objId = o →
      noTriple eA.src first.outputN eA.key ((l.foldl (joinOutStep first) g)) := by
  intro l
  induction l with
  | nil => intro g eo _ hm; cases hm
  | cons x rest ih =>
      intro g eo hl hm hid
      rcases List.mem_cons.mp hm with he | he
      · subst he
        exact outFold_preserves_noTriple first eA.src eA.key rest _
          (fun y hy => hl y (List.mem_cons_of_mem eo hy))
          (outStep_establishes_noTriple first g eo eA o htab hid
            (hl eo (List.mem_cons_self eo rest)))
      · exact ih (joinOutStep first g x) eo
          (fun y hy => hl y (List.mem_cons_of_mem x hy)) he hid

theorem edges_copy_nodeFold (skip : List String) :
    ∀ (l : List (String × Option FlowGraph)) (g : FlowGraph),
      ((l.foldl (fun G p => if skip.contains p.1 then G
                            else G.withNodes (addNode G.nodes p.1 p.2)) g)).edges
        = g.edges := by
  intro l
  induction l with
  | nil => intro g; rfl
  | cons p rest ih =>
      intro g
      rw [List.foldl_cons, ih]
      split
      · rfl
      · rw [edges_withNodes]

theorem edges_copy_edgeFold_ext (skip : List String) :
    ∀ (l : List Edge) (g : FlowGraph),
      ∃ tail, ((l.foldl (fun G e => if skip.contains e.src || skip.contains e.tgt then G
                                    else addEdgeG G e.src e.tgt e.data) g)).edges
        = g.edges ++ tail := by
  intro l
  induction l with
  | nil => intro g; exact ⟨[], by simp⟩
  | cons e rest ih =>
      intro g
      rw [List.foldl_cons]
      by_cases hs : (skip.contains e.src || skip.contains e.tgt) = true
      · rw [if_pos hs]
        exact ih g
      · rw [if_neg hs]
        obtain ⟨t1, ht1⟩ := ih (addEdgeG g e.src e.tgt e.data)
        refine ⟨[Edge.mk e.src e.tgt (freshKey g.edges e.src e.tgt) e.data] ++ t1, ?_⟩
        rw [ht1, edges_addEdgeG, List.append_assoc]

theorem copy_edges_ext (source dest : FlowGraph) :
    ∃ tail, (copy_flow_graph source dest).edges = dest.edges ++ tail := by
  unfold copy_flow_graph
  dsimp only
  obtain ⟨t, ht⟩ := edges_copy_edgeFold_ext [source.inputN, source.outputN] source.edges
    (source.nodes.foldl (fun G p => if [source.inputN, source.outputN].contains p.1 then G
      else G.withNodes (addNode G.nodes p.1 p.2)) dest)
  rw [edges_copy_nodeFold] at ht
  exact ⟨t, ht⟩

/-- C1 (amended): if node `A` of `first` has the unique output edge `eA`
reaching `out(first)` with object identity `o` (with a source port, as
Python's `graph.edges[...]['sourceport']` lookup requires), and `second`
reads `o` as an external input into consumer `t`, then `join(first,
second)` contains a direct edge from `A` to `t` carrying `eA`'s source
port (first conjunct).  The stale `first`-side output edge for `o` is
removed exactly when `o` also reaches `out(second)` (second conjunct); the
unamended claim — removal whenever `second` merely reads `o` — is refuted
by `c1_join_stale_retained`. -/
theorem c1_join_connects (first second : FlowGraph) (eA e2 : Edge) (o : Nat)
    (hA : eA ∈ first.edges) (htgtA : eA.tgt = first.outputN)
    (hidA : eA.data.objId = o) (hspA : eA.data.sourceport.isSome = true)
    (huniq : ∀ e ∈ first.edges, e.tgt = first.outputN → e.data.objId = o → e = eA)
    (hkeys : (first.edges.map (fun e => (e.src, e.tgt, e.key))).Nodup)
    (hsrc2 : e2.src = second.inputN) (hid2 : e2.data.objId = o)
    (he2 : e2 ∈ second.edges) (ht2 : e2.tgt ≠ first.outputN)
    (hsrcA : ∀ e ∈ second.edges, e.tgt = second.outputN → e.src ≠ eA.src) :
    (∃ kk, Edge.mk eA.src e2.tgt kk { e2.data with sourceport := eA.data.sourceport }
        ∈ (join first second).edges)
    ∧ ((∃ eo ∈ second.edges, eo.tgt = second.outputN ∧ eo.data.objId = o) →
        ∀ e ∈ (join first second).edges,
          ¬(e.src = eA.src ∧ e.tgt = first.outputN ∧ e.key = eA.key)) := by
  have htab := outputTableLookup_unique first eA o hA htgtA hidA huniq
  have hf1 : first.edges.find? (fun x =>
      x.src == eA.src && x.tgt == first.outputN && x.key == eA.key) = some eA := by
    rw [← htgtA]
    exact find?_triple_of_mem first.edges eA hkeys hA
  obtain ⟨tail, htail⟩ := copy_edges_ext second first
  have hf0 : (copy_flow_graph second first).edges.find? (fun x =>
      x.src == eA.src && x.tgt == first.outputN && x.key == eA.key) = some eA := by
    rw [htail]
    exact find?_append_left _ _ _ _ hf1
  rw [join_eq]
  constructor
  · obtain ⟨kk, hkk⟩ := joinIn_fold_adds first eA o htab
      (second.edges.filter (fun e => e.src == second.inputN))
      (copy_flow_graph second first) e2
      (List.mem_filter.mpr ⟨he2, by simpa using hsrc2⟩) hid2 hf0
    exact ⟨kk, mem_fold_outStep first _ _ _ ht2 hkk⟩
  · rintro ⟨eo, heo, htgt_o, hid_o⟩
    have hl : ∀ x ∈ (second.edges.filter (fun e => e.tgt == second.outputN)),
        x.src ≠ eA.src := by
      intro x hx
      exact hsrcA x (List.mem_of_mem_filter hx) (by simpa using List.of_mem_filter hx)
    exact outFold_removes first eA o htab _ _ eo hl
      (List.mem_filter.mpr ⟨heo, by simpa using htgt_o⟩) hid_o

def c1d1 : EdgeData := EdgeData.mk 1 (some ("p")) Option.none Option.none

def c1d2 : EdgeData := EdgeData.mk 1 Option.none (some ("q")) Option.none

/-- `first`: node `A` sends object 1 to the output sentinel. -/
def c1First : FlowGraph :=
  .mk ("__in__") ("__out__")
    [(("__in__"), Option.none), (("__out__"), Option.none), (("A"), Option.none)]
    [Edge.mk ("A") ("__out__") 0 c1d1]

/-- `second`: consumer `T` reads object 1 as an external input, and object
1 does NOT reach `out(second)`. -/
def c1Second : FlowGraph :=
  .mk ("__in__") ("__out__")
    [(("__in__"), Option.none), (("__out__"), Option.none), (("T"), Option.none)]
    [Edge.mk ("__in__") ("T") 0 c1d2]

/-- C1 (counterexample): `second` reads object 1 as an external input, yet
`join(first, second)` still contains `first`'s output edge `A -> out` for
object 1 — the stale edge is only removed by the output loop, which runs
over edges into `out(second)`; here object 1 never reaches `out(second)`,
so the removal never fires, contradicting the claim that the match on the
input side suffices. -/
theorem c1_join_stale_retained :
    Edge.mk ("A") ("__out__") 0 c1d1 ∈ (join c1First c1Second).edges := by decide

/-- `second` variant in which object 1 also reaches `out(second)`. -/
def c1SecondB : FlowGraph :=
  .mk ("__in__") ("__out__")
    [(("__in__"), Option.none), (("__out__"), Option.none), (("T"), Option.none)]
    [Edge.mk ("__in__") ("T") 0 c1d2,
     Edge.mk ("T") ("__out__") 0 (EdgeData.mk 1 (some ("r")) Option.none Option.none)]

theorem c1_join_connects_witness :
    ((Edge.mk ("A") ("__out__") 0 c1d1 ∈ c1First.edges)
      ∧ (Edge.mk ("A") ("__out__") 0 c1d1).tgt = c1First.outputN
      ∧ (Edge.mk ("__in__") ("T") 0 c1d2) ∈ c1SecondB.edges)
    ∧ ((∃ kk, Edge.mk (Edge.mk ("A") ("__out__") 0 c1d1).src
          (Edge.mk ("__in__") ("T") 0 c1d2).tgt kk
          { (Edge.mk ("__in__") ("T") 0 c1d2).data with
              sourceport := (Edge.mk ("A") ("__out__") 0 c1d1).data.sourceport }
          ∈ (join c1First c1SecondB).edges)
      ∧ ((∃ eo ∈ c1SecondB.edges, eo.tgt = c1SecondB.outputN ∧ eo.data.objId = 1) →
          ∀ e ∈ (join c1First c1SecondB).edges,
            ¬(e.src = (Edge.mk ("A") ("__out__") 0 c1d1).src
              ∧ e.tgt = c1First.outputN
              ∧ e.key = (Edge.mk ("A") ("__out__") 0 c1d1).key))) :=
  ⟨⟨by decide, by decide, by decide⟩,
    c1_join_connects c1First c1SecondB
      (Edge.mk ("A") ("__out__") 0 c1d1) (Edge.mk ("__in__") ("T") 0 c1d2) 1
      (by decide) (by decide) (by decide) (by decide) (by decide) (by decide)
      (by decide) (by decide) (by decide) (by decide) (by decide)⟩
